import Mathlib

/-!
# Verification of the kfp-tekton graph-to-workflow lowering compiler

Shallow embedding of `sdk/python/kfp_tekton/compiler/compiler.py` together
with proofs about the claims of the specification.  Python strings are
embedded as `List Char` (with `String` wrappers), dictionaries as
association lists, Python `set` accumulation as duplicate-free insertion,
and exceptions as `Except String`.

The Kubernetes name sanitizer (`sanitize_k8s_name`, a pure string
transformation living in `_k8s_helper.py`, which the specification
declares an external collaborator) is modelled from the spec; everything
else is translated from the compiler source.
-/

namespace KFPT

/-! ## Character classes and the sanitizer model -/

/-- Character class of the regex `[^ \t\n,]` used by `process_pipelineparam`:
everything except space, tab, newline and comma. -/
def tokChar (c : Char) : Bool :=
  !(c = ' ' || c = '\t' || c = '\n' || c = ',')

/-- Characters of ordinary sanitized identifiers (alphanumerics, dash,
underscore); used to describe well-behaved producer/parameter names. -/
def identChar (c : Char) : Bool :=
  c.isAlphanum || c = '-' || c = '_'

/-- Modelled from the spec: per-character action of the external
Kubernetes-name sanitizer (`sanitize_k8s_name` from `_k8s_helper.py`, not
under `src/`; spec section 6 describes the allowed charset as alphanumeric
plus limited punctuation).  Lower-case letters, digits and dashes are kept;
capitals are kept only when `allowCapital` is set and are lower-cased
otherwise; every other character is replaced by a dash. -/
def sanChar (allowCapital : Bool) (c : Char) : Char :=
  if c.isLower || c.isDigit || c = '-' then c
  else if c.isUpper then (if allowCapital then c else c.toLower)
  else '-'

/-- Modelled from the spec: the external sanitizer on character lists
(length bounding elided; none of the verified claims concern truncation). -/
def sanitizeChars (allowCapital : Bool) (l : List Char) : List Char :=
  l.map (sanChar allowCapital)

/-- Modelled from the spec: the external sanitizer on strings. -/
def sanitize_k8s_name (allowCapital : Bool) (s : String) : String :=
  ⟨sanitizeChars allowCapital s.data⟩

/-! ## Substring occurrence machinery

`occList pat l` lists every index at which `pat` occurs in `l`; it is the
basis both of the Python `in` (substring) test and of the greedy
backtracking behaviour of `re.findall` that `process_pipelineparam`
relies on. -/

/-- All indices `i` with `pat` a prefix of `l.drop i`, in increasing order. -/
def occList (pat l : List Char) : List Nat :=
  (List.range (l.length + 1)).filter (fun i => pat.isPrefixOf (l.drop i))

/-- The largest occurrence index of `pat` in `l`, if any (the position the
greedy regex engine backtracks to). -/
def lastOcc (pat l : List Char) : Option Nat :=
  (occList pat l).getLast?

/-- Python `pat in s` (substring containment). -/
def containsSub (pat l : List Char) : Bool :=
  !(occList pat l).isEmpty

theorem mem_occList {pat l : List Char} {i : Nat} :
    i ∈ occList pat l ↔ i ≤ l.length ∧ pat <+: l.drop i := by
  simp [occList, List.mem_filter, List.mem_range, Nat.lt_succ_iff,
    List.isPrefixOf_iff_prefix, and_comm]

theorem occList_pairwise (pat l : List Char) :
    (occList pat l).Pairwise (· < ·) := by
  exact (List.pairwise_lt_range _).sublist (List.filter_sublist _)

theorem natList_mem_of_getLast? {l : List Nat} {i : Nat}
    (h : l.getLast? = some i) : i ∈ l := by
  induction l with
  | nil => simp at h
  | cons a rest ih =>
    cases rest with
    | nil => simp at h; simp [h]
    | cons b r2 =>
      rw [List.getLast?_cons_cons] at h
      exact List.mem_cons_of_mem a (ih h)

theorem natList_le_getLast? {l : List Nat} (hp : l.Pairwise (· < ·))
    {i j : Nat} (hl : l.getLast? = some i) (hj : j ∈ l) : j ≤ i := by
  induction l with
  | nil => simp at hj
  | cons a rest ih =>
    cases rest with
    | nil =>
      simp at hl hj; omega
    | cons b r2 =>
      rw [List.getLast?_cons_cons] at hl
      rcases List.mem_cons.mp hj with rfl | hjt
      · have hmem := natList_mem_of_getLast? hl
        have := (List.pairwise_cons.mp hp).1 i hmem
        omega
      · exact ih (List.pairwise_cons.mp hp).2 hl hjt

theorem lastOcc_spec {pat l : List Char} {i : Nat}
    (h : lastOcc pat l = some i) :
    i ≤ l.length ∧ pat <+: l.drop i := by
  exact mem_occList.mp (natList_mem_of_getLast? h)

theorem lastOcc_ge {pat l : List Char} {i j : Nat}
    (h : lastOcc pat l = some i) (hj : j ≤ l.length)
    (hpre : pat <+: l.drop j) : j ≤ i := by
  exact natList_le_getLast? (occList_pairwise pat l) h
    (mem_occList.mpr ⟨hj, hpre⟩)

theorem lastOcc_isSome {pat l : List Char} {j : Nat}
    (hj : j ≤ l.length) (hpre : pat <+: l.drop j) :
    ∃ i, lastOcc pat l = some i := by
  have hjmem : j ∈ occList pat l := mem_occList.mpr ⟨hj, hpre⟩
  have hne : occList pat l ≠ [] := by
    intro hnil; rw [hnil] at hjmem; simp at hjmem
  rcases Option.isSome_iff_exists.mp (List.getLast?_isSome.mpr hne) with ⟨i, hi⟩
  exact ⟨i, hi⟩

theorem lastOcc_none {pat l : List Char}
    (h : lastOcc pat l = none) {j : Nat} (hj : j ≤ l.length) :
    ¬ (pat <+: l.drop j) := by
  intro hpre
  rcases lastOcc_isSome hj hpre with ⟨i, hi⟩
  rw [h] at hi; cases hi

theorem containsSub_iff {pat l : List Char} :
    containsSub pat l = true ↔ ∃ j, j ≤ l.length ∧ pat <+: l.drop j := by
  constructor
  · intro h
    rw [containsSub] at h
    have hne : occList pat l ≠ [] := by
      intro hnil; rw [hnil] at h; simp at h
    rcases List.exists_mem_of_ne_nil _ hne with ⟨j, hjmem⟩
    exact ⟨j, mem_occList.mp hjmem⟩
  · rintro ⟨j, hj, hpre⟩
    have : j ∈ occList pat l := mem_occList.mpr ⟨hj, hpre⟩
    rw [containsSub]
    cases hocc : occList pat l with
    | nil => rw [hocc] at this; simp at this
    | cons a r => simp

/-! ## The symbolic-reference rewriter (`process_pipelineparam`)

Source, `compiler.py` lines 396-416: the function scans a string for
`\x7b\x7bpipelineparam:op=([^ \t\n,]*);name=([^ \t\n,]*)\x7d\x7d` with
`re.findall` and then replaces each reconstructed match via `str.replace`
(all occurrences), producing `$(params.NAME)` when the producer is empty
and `$(tasks.SAN(OP).results.SANCAP(NAME))` otherwise.

`matchAt` mirrors the greedy backtracking of the Python regex engine for
this particular pattern: both capture groups live inside the maximal
`tokChar` run following the literal head, group 1 extends to the last
viable `;name=` and group 2 to the last `\x7d\x7d` of that run. -/

/-- The literal head of the reference pattern (19 characters,
`\x7b\x7bpipelineparam:op=`). -/
def ppHead : List Char :=
  ['\x7b', '\x7b', 'p', 'i', 'p', 'e', 'l', 'i', 'n', 'e', 'p', 'a', 'r',
   'a', 'm', ':', 'o', 'p', '=']

/-- The tail of the separator after its leading semicolon (`name=`). -/
def sepTail : List Char := ['n', 'a', 'm', 'e', '=']

/-- The literal separator `;name=` of the reference pattern. -/
def ppSep : List Char := ';' :: sepTail

/-- The literal closer (two closing braces) of the reference pattern. -/
def ppClose : List Char := ['\x7d', '\x7d']

/-- The guard substring `\x7b\x7bpipelineparam` tested with Python `in`. -/
def ppGuard : List Char :=
  ['\x7b', '\x7b', 'p', 'i', 'p', 'e', 'l', 'i', 'n', 'e', 'p', 'a', 'r',
   'a', 'm']

/-- Attempt the reference regex at the start of `l`.  On success returns
the two capture groups and the number of consumed characters. -/
def matchAt (l : List Char) : Option (List Char × List Char × Nat) :=
  if ppHead.isPrefixOf l then
    match lastOcc ppClose ((l.drop 19).takeWhile tokChar) with
    | none => none
    | some jstar =>
      match lastOcc ppSep (((l.drop 19).takeWhile tokChar).take jstar) with
      | none => none
      | some istar =>
        some (((l.drop 19).takeWhile tokChar).take istar,
          ((((l.drop 19).takeWhile tokChar).drop (istar + 6)).take
            (jstar - (istar + 6))),
          19 + jstar + 2)
  else none

theorem matchAt_consumed_pos {l op nm : List Char} {k : Nat}
    (h : matchAt l = some (op, nm, k)) : 0 < k ∧ l ≠ [] := by
  rw [matchAt] at h
  split at h
  case isTrue hp =>
    constructor
    · split at h
      · cases h
      · split at h
        · cases h
        · simp only [Option.some.injEq, Prod.mk.injEq] at h
          omega
    · intro hnil
      subst hnil
      have : ppHead <+: ([] : List Char) := List.isPrefixOf_iff_prefix.mp hp
      have := this.length_le
      simp [ppHead] at this
  case isFalse => cases h

/-- Fuelled scanning loop of `re.findall` for the reference pattern (the
fuel is only a structural-recursion device; `findAll` supplies enough). -/
def findAllGo : Nat → List Char → List (List Char × List Char)
  | _, [] => []
  | 0, _ :: _ => []
  | fuel + 1, c :: cs =>
    match matchAt (c :: cs) with
    | some (op, nm, k) => (op, nm) :: findAllGo fuel ((c :: cs).drop k)
    | none => findAllGo fuel cs

/-- `re.findall` of the reference pattern over `l`: scan left to right,
emitting each match's capture groups and resuming after it. -/
def findAll (l : List Char) : List (List Char × List Char) :=
  findAllGo l.length l

theorem findAllGo_irrel : ∀ (f1 f2 : Nat) (l : List Char),
    l.length ≤ f1 → l.length ≤ f2 → findAllGo f1 l = findAllGo f2 l := by
  intro f1
  induction f1 with
  | zero =>
    intro f2 l h1 _
    have : l = [] := List.eq_nil_of_length_eq_zero (by omega)
    subst this
    cases f2 <;> rfl
  | succ f ih =>
    intro f2 l h1 h2
    cases l with
    | nil => cases f2 <;> rfl
    | cons c cs =>
      cases f2 with
      | zero => simp at h2
      | succ g =>
        rw [findAllGo, findAllGo]
        cases hm : matchAt (c :: cs) with
        | none =>
          simp only []
          exact ih g cs (by simp at h1; omega) (by simp at h2; omega)
        | some r =>
          rcases r with ⟨op, nm, k⟩
          simp only []
          have hk := (matchAt_consumed_pos hm).1
          have hlen : ((c :: cs).drop k).length ≤ f := by
            simp only [List.length_drop, List.length_cons]
            simp at h1
            omega
          have hlen2 : ((c :: cs).drop k).length ≤ g := by
            simp only [List.length_drop, List.length_cons]
            simp at h2
            omega
          rw [ih g _ hlen hlen2]

theorem findAll_nil : findAll [] = [] := rfl

theorem findAll_cons_none {c : Char} {cs : List Char}
    (h : matchAt (c :: cs) = none) :
    findAll (c :: cs) = findAll cs := by
  rw [findAll, findAll, List.length_cons, findAllGo, h]

theorem findAll_cons_some {c : Char} {cs op nm : List Char} {k : Nat}
    (h : matchAt (c :: cs) = some (op, nm, k)) :
    findAll (c :: cs) = (op, nm) :: findAll ((c :: cs).drop k) := by
  rw [findAll, findAll, List.length_cons, findAllGo, h]
  simp only []
  have hk := (matchAt_consumed_pos h).1
  rw [findAllGo_irrel cs.length ((c :: cs).drop k).length _
    (by simp; omega) (le_refl _)]

/-- Fuelled loop of Python `str.replace` (structural-recursion device). -/
def replaceAllGo (pat rep : List Char) : Nat → List Char → List Char
  | _, [] => []
  | 0, l => l
  | fuel + 1, c :: cs =>
    if pat.isPrefixOf (c :: cs) then
      rep ++ replaceAllGo pat rep fuel ((c :: cs).drop pat.length)
    else
      c :: replaceAllGo pat rep fuel cs

/-- Python `str.replace`: replace every (left-to-right, non-overlapping)
occurrence of `pat` in `l` by `rep`.  The empty pattern is left alone
(never produced by the rewriter). -/
def replaceAll (l pat rep : List Char) : List Char :=
  if pat = [] then l else replaceAllGo pat rep l.length l

theorem replaceAllGo_irrel {pat rep : List Char} (hpat : pat ≠ []) :
    ∀ (f1 f2 : Nat) (l : List Char),
    l.length ≤ f1 → l.length ≤ f2 →
    replaceAllGo pat rep f1 l = replaceAllGo pat rep f2 l := by
  intro f1
  induction f1 with
  | zero =>
    intro f2 l h1 _
    have : l = [] := List.eq_nil_of_length_eq_zero (by omega)
    subst this
    cases f2 <;> rfl
  | succ f ih =>
    intro f2 l h1 h2
    cases l with
    | nil => cases f2 <;> rfl
    | cons c cs =>
      cases f2 with
      | zero => simp at h2
      | succ g =>
        rw [replaceAllGo, replaceAllGo]
        have hplen : 0 < pat.length := List.length_pos.mpr hpat
        by_cases hpre : pat.isPrefixOf (c :: cs) = true
        · rw [if_pos hpre, if_pos hpre]
          have hlen : ((c :: cs).drop pat.length).length ≤ f := by
            simp only [List.length_drop, List.length_cons]
            simp at h1
            omega
          have hlen2 : ((c :: cs).drop pat.length).length ≤ g := by
            simp only [List.length_drop, List.length_cons]
            simp at h2
            omega
          rw [ih g _ hlen hlen2]
        · rw [Bool.not_eq_true] at hpre
          rw [if_neg (by simp [hpre]), if_neg (by simp [hpre])]
          rw [ih g cs (by simp at h1; omega) (by simp at h2; omega)]

/-- The exact text matched for a capture pair, as reconstructed by
`"\x7b\x7bpipelineparam:op=%s;name=%s\x7d\x7d" % pipe_param`. -/
def refText (op nm : List Char) : List Char :=
  ppHead ++ op ++ ppSep ++ nm ++ ppClose

/-- The replacement emitted for a capture pair: pipeline-scope references
keep the name verbatim, task-result references sanitize both components. -/
def refRepl (op nm : List Char) : List Char :=
  if op.isEmpty then
    ['$', '(', 'p', 'a', 'r', 'a', 'm', 's', '.'] ++ nm ++ [')']
  else
    ['$', '(', 't', 'a', 's', 'k', 's', '.'] ++ sanitizeChars false op
      ++ ['.', 'r', 'e', 's', 'u', 'l', 't', 's', '.']
      ++ sanitizeChars true nm ++ [')']

/-- `process_pipelineparam` (source lines 396-416): guard on the substring
`\x7b\x7bpipelineparam`, find all matches in the original string, then
sequentially replace each reconstructed match text everywhere. -/
def process_pipelineparam (s : String) : String :=
  if containsSub ppGuard s.data then
    ⟨(findAll s.data).foldl
      (fun acc p => replaceAll acc (refText p.1 p.2) (refRepl p.1 p.2))
      s.data⟩
  else s

/-! ## Canonical reference strings

The counterexample below shows that the rewriter is not idempotent on
strings whose references nest.  The amended statement restricts to
strings in canonical form: plain text (no braces) alternating with
references whose producer and parameter names use the sanitized
identifier charset, consecutive references being separated by at least
one token-breaking character. -/

theorem identChar_tokChar {c : Char} (h : identChar c = true) :
    tokChar c = true := by
  rw [identChar] at h
  rw [tokChar]
  rcases Bool.or_eq_true_iff.mp h with h1 | h2
  · rcases Bool.or_eq_true_iff.mp h1 with h3 | h4
    · have hsp : c ≠ ' ' := by
        intro he; rw [he] at h3; simp [Char.isAlphanum, Char.isAlpha,
          Char.isLower, Char.isUpper, Char.isDigit] at h3
      have htb : c ≠ '\t' := by
        intro he; rw [he] at h3; simp [Char.isAlphanum, Char.isAlpha,
          Char.isLower, Char.isUpper, Char.isDigit] at h3
      have hnl : c ≠ '\n' := by
        intro he; rw [he] at h3; simp [Char.isAlphanum, Char.isAlpha,
          Char.isLower, Char.isUpper, Char.isDigit] at h3
      have hcm : c ≠ ',' := by
        intro he; rw [he] at h3; simp [Char.isAlphanum, Char.isAlpha,
          Char.isLower, Char.isUpper, Char.isDigit] at h3
      simp [hsp, htb, hnl, hcm]
    · have := of_decide_eq_true h4
      subst this; decide
  · have := of_decide_eq_true h2
    subst this; decide

theorem identChar_ne {c d : Char} (h : identChar c = true)
    (hd : identChar d = false) : c ≠ d := by
  intro he; rw [he, hd] at h; cases h

theorem ident_not_mem {l : List Char} (h : l.all identChar = true)
    {d : Char} (hd : identChar d = false) : d ∉ l := by
  intro hmem
  have := List.all_eq_true.mp h d hmem
  rw [hd] at this; cases this

theorem takeWhile_append_all {p : Char → Bool} {a b : List Char}
    (h : ∀ c ∈ a, p c = true) :
    (a ++ b).takeWhile p = a ++ b.takeWhile p := by
  induction a with
  | nil => simp
  | cons c cs ih =>
    have hc : p c = true := h c (List.mem_cons_self c cs)
    simp only [List.cons_append, List.takeWhile_cons, hc, if_true]
    rw [ih (fun d hd => h d (List.mem_cons_of_mem c hd))]

theorem takeWhile_append_stop {p : Char → Bool} {a b : List Char}
    (h : ∃ c ∈ a, p c = false) :
    (a ++ b).takeWhile p = a.takeWhile p := by
  induction a with
  | nil => rcases h with ⟨c, hc, _⟩; simp at hc
  | cons c cs ih =>
    by_cases hc : p c = true
    · simp only [List.cons_append, List.takeWhile_cons, hc, if_true]
      rcases h with ⟨d, hd, hdf⟩
      rcases List.mem_cons.mp hd with rfl | hdt
      · rw [hdf] at hc; cases hc
      · rw [ih ⟨d, hdt, hdf⟩]
    · rw [Bool.not_eq_true] at hc
      simp only [List.cons_append, List.takeWhile_cons, hc]
      simp

theorem takeWhile_sub {p : Char → Bool} {l : List Char} :
    ∀ c ∈ l.takeWhile p, c ∈ l :=
  fun _ hc => (List.takeWhile_prefix p).subset hc

/-- Cancel a common prefix on both sides of a prefix relation. -/
theorem prefix_cancel {l a b : List Char} (h : l ++ a <+: l ++ b) :
    a <+: b := by
  rcases h with ⟨t, ht⟩
  rw [List.append_assoc] at ht
  exact ⟨t, List.append_cancel_left ht⟩

/-- A prefix relation between two separator-delimited lists forces the
leading components to agree when neither contains the separator. -/
theorem prefix_sep_eq {c : Char} {x y u v : List Char}
    (hx : c ∉ x) (hy : c ∉ y) (h : x ++ c :: u <+: y ++ c :: v) :
    x = y ∧ u <+: v := by
  induction x generalizing y with
  | nil =>
    cases y with
    | nil =>
      refine ⟨rfl, ?_⟩
      rcases h with ⟨t, ht⟩
      simp only [List.nil_append, List.cons_append] at ht
      injection ht with h1 h2
      exact ⟨t, h2⟩
    | cons b y2 =>
      rcases h with ⟨t, ht⟩
      simp only [List.nil_append, List.cons_append] at ht
      injection ht with h1 h2
      subst h1
      exact absurd (List.mem_cons_self c y2) hy
  | cons a x2 ih =>
    cases y with
    | nil =>
      rcases h with ⟨t, ht⟩
      simp only [List.cons_append, List.nil_append] at ht
      injection ht with h1 h2
      subst h1
      exact absurd (List.mem_cons_self a x2) hx
    | cons b y2 =>
      rcases h with ⟨t, ht⟩
      simp only [List.cons_append] at ht
      injection ht with h1 h2
      subst h1
      have hx2 : c ∉ x2 := fun hm => hx (List.mem_cons_of_mem a hm)
      have hy2 : c ∉ y2 := fun hm => hy (List.mem_cons_of_mem a hm)
      have hpre : x2 ++ c :: u <+: y2 ++ c :: v := by
        exact ⟨t, h2⟩
      rcases ih hx2 hy2 hpre with ⟨rfl, huv⟩
      exact ⟨rfl, huv⟩

theorem mem_append3 {a b c : List Char} {x : Char} :
    x ∈ a ++ b ++ c ↔ x ∈ a ∨ x ∈ b ∨ x ∈ c := by
  simp [List.mem_append, or_assoc]

theorem lastOcc_ppClose_canon {op nm ext : List Char}
    (_hnm : nm.all identChar = true)
    (hext : '\x7d' ∉ ext) :
    lastOcc ppClose ((op ++ ppSep ++ nm) ++ (ppClose ++ ext))
      = some (op ++ ppSep ++ nm).length := by
  have hocc : ppClose <+: ((op ++ ppSep ++ nm) ++ (ppClose ++ ext)).drop
      (op ++ ppSep ++ nm).length := by
    rw [List.drop_left]
    exact List.prefix_append ppClose ext
  have hlen : (op ++ ppSep ++ nm).length
      ≤ ((op ++ ppSep ++ nm) ++ (ppClose ++ ext)).length := by
    simp
  rcases lastOcc_isSome hlen hocc with ⟨i, hi⟩
  have hge := lastOcc_ge hi hlen hocc
  have hle : i ≤ (op ++ ppSep ++ nm).length := by
    by_contra hgt
    push_neg at hgt
    rcases lastOcc_spec hi with ⟨hib, hipre⟩
    set idx := (op ++ ppSep ++ nm).length with hidx
    have hdropi : ((op ++ ppSep ++ nm) ++ (ppClose ++ ext)).drop i
        = (ppClose ++ ext).drop (i - idx) := by
      conv_lhs => rw [show i = idx + (i - idx) by omega]
      rw [← List.drop_drop, List.drop_left]
    rw [hdropi] at hipre
    by_cases hm2 : i - idx = 1
    · rw [hm2] at hipre
      have hstep : (ppClose ++ ext).drop 1 = '\x7d' :: ext := by
        rw [ppClose]; rfl
      rw [hstep] at hipre
      rcases hipre with ⟨t, ht⟩
      rw [ppClose] at ht
      simp only [List.cons_append, List.nil_append] at ht
      injection ht with h1 h2
      exact hext (h2 ▸ List.mem_cons_self _ _)
    · obtain ⟨k, hk⟩ : ∃ k, i - idx = 2 + k := ⟨i - idx - 2, by omega⟩
      rw [hk] at hipre
      have hstep : (ppClose ++ ext).drop (2 + k) = ext.drop k := by
        rw [ppClose]
        simp only [List.cons_append, List.nil_append]
        rw [show 2 + k = (k + 1) + 1 by omega, List.drop_succ_cons,
          show k + 1 = k + 1 by rfl, List.drop_succ_cons]
      rw [hstep] at hipre
      rcases hipre with ⟨t, ht⟩
      have hmem : '\x7d' ∈ ext.drop k := by
        rw [← ht, ppClose]
        simp
      exact hext (List.drop_subset _ _ hmem)
  have : i = (op ++ ppSep ++ nm).length := by omega
  rw [← this]
  exact hi

theorem lastOcc_ppSep_canon {op nm : List Char}
    (hnm : nm.all identChar = true) :
    lastOcc ppSep (op ++ ppSep ++ nm) = some op.length := by
  have hsemi_nm : ';' ∉ nm := ident_not_mem hnm (by decide)
  have hocc : ppSep <+: (op ++ ppSep ++ nm).drop op.length := by
    rw [List.append_assoc, List.drop_left]
    exact List.prefix_append ppSep nm
  have hlen : op.length ≤ (op ++ ppSep ++ nm).length := by simp
  rcases lastOcc_isSome hlen hocc with ⟨i, hi⟩
  have hge := lastOcc_ge hi hlen hocc
  have hle : i ≤ op.length := by
    by_contra hgt
    push_neg at hgt
    rcases lastOcc_spec hi with ⟨hib, hipre⟩
    have hdropi : (op ++ ppSep ++ nm).drop i
        = (ppSep ++ nm).drop (i - op.length) := by
      conv_lhs => rw [show i = op.length + (i - op.length) by omega]
      rw [List.append_assoc, ← List.drop_drop, List.drop_left]
    rw [hdropi] at hipre
    obtain ⟨k, hk⟩ : ∃ k, i - op.length = 1 + k :=
      ⟨i - op.length - 1, by omega⟩
    rw [hk] at hipre
    have hstep : (ppSep ++ nm).drop (1 + k) = (sepTail ++ nm).drop k := by
      rw [ppSep]
      simp only [List.cons_append]
      rw [show 1 + k = k + 1 by omega, List.drop_succ_cons]
    rw [hstep] at hipre
    rcases hipre with ⟨t, ht⟩
    have hmem : ';' ∈ (sepTail ++ nm).drop k := by
      rw [← ht, ppSep]
      simp
    have hmem2 := List.drop_subset _ _ hmem
    rcases List.mem_append.mp hmem2 with hmn | hmy
    · rw [sepTail] at hmn
      simp at hmn
    · exact hsemi_nm hmy
  have : i = op.length := by omega
  rw [← this]
  exact hi

theorem ppSep_all_tok : ∀ c ∈ ppSep, tokChar c = true := by decide

theorem ppClose_all_tok : ∀ c ∈ ppClose, tokChar c = true := by decide

theorem ident_all_tok {l : List Char} (h : l.all identChar = true) :
    ∀ c ∈ l, tokChar c = true :=
  fun c hc => identChar_tokChar (List.all_eq_true.mp h c hc)

/-- The text matched by the regex at a canonical reference: both groups
are recovered verbatim and exactly the reference text is consumed. -/
theorem matchAt_canonical {op nm rest : List Char}
    (hop : op.all identChar = true) (hnm : nm.all identChar = true)
    (hE : '\x7d' ∉ rest.takeWhile tokChar) :
    matchAt (refText op nm ++ rest)
      = some (op, nm, (refText op nm).length) := by
  have hshape : refText op nm ++ rest
      = ppHead ++ ((op ++ ppSep ++ nm ++ ppClose) ++ rest) := by
    rw [refText]; simp [List.append_assoc]
  have hpr : ppHead.isPrefixOf (refText op nm ++ rest) = true := by
    rw [List.isPrefixOf_iff_prefix, hshape]
    exact List.prefix_append _ _
  have hdrop : (refText op nm ++ rest).drop 19
      = (op ++ ppSep ++ nm ++ ppClose) ++ rest := by
    rw [hshape, show (19 : Nat) = ppHead.length from rfl, List.drop_left]
  have htokrun : ∀ c ∈ op ++ ppSep ++ nm ++ ppClose, tokChar c = true := by
    intro c hc
    simp only [List.append_assoc, List.mem_append] at hc
    rcases hc with h1 | h1 | h1 | h1
    · exact ident_all_tok hop c h1
    · exact ppSep_all_tok c h1
    · exact ident_all_tok hnm c h1
    · exact ppClose_all_tok c h1
  have htw : ((refText op nm ++ rest).drop 19).takeWhile tokChar
      = (op ++ ppSep ++ nm) ++ (ppClose ++ (rest.takeWhile tokChar)) := by
    rw [hdrop, takeWhile_append_all htokrun]
    simp [List.append_assoc]
  have hclose := @lastOcc_ppClose_canon op nm (rest.takeWhile tokChar)
    hnm hE
  have htake : ((op ++ ppSep ++ nm) ++ (ppClose
      ++ (rest.takeWhile tokChar))).take (op ++ ppSep ++ nm).length
      = op ++ ppSep ++ nm := List.take_left _ _
  have hsep := @lastOcc_ppSep_canon op nm hnm
  have hg1 : ((op ++ ppSep ++ nm) ++ (ppClose
      ++ (rest.takeWhile tokChar))).take op.length = op := by
    rw [show (op ++ ppSep ++ nm) ++ (ppClose ++ (rest.takeWhile tokChar))
        = op ++ (ppSep ++ (nm ++ (ppClose ++ (rest.takeWhile tokChar))))
        by simp [List.append_assoc]]
    exact List.take_left _ _
  have hg2 : (((op ++ ppSep ++ nm) ++ (ppClose
        ++ (rest.takeWhile tokChar))).drop
        (op.length + 6)).take ((op ++ ppSep ++ nm).length - (op.length + 6))
      = nm := by
    have hsep6 : ppSep.length = 6 := rfl
    have hlen0 : (op ++ ppSep ++ nm).length
        = op.length + ppSep.length + nm.length := by simp; omega
    have harith : (op ++ ppSep ++ nm).length - (op.length + 6)
        = nm.length := by omega
    have hlen6 : (op ++ ppSep).length = op.length + 6 := by
      simp [hsep6]
    rw [harith, show (op ++ ppSep ++ nm) ++ (ppClose
        ++ (rest.takeWhile tokChar))
        = (op ++ ppSep) ++ (nm ++ (ppClose ++ (rest.takeWhile tokChar)))
        by simp [List.append_assoc], ← hlen6, List.drop_left]
    exact List.take_left _ _
  have hlenref : 19 + (op ++ ppSep ++ nm).length + 2
      = (refText op nm).length := by
    simp [refText, ppHead, ppSep, ppClose, sepTail]
    omega
  rw [matchAt, if_pos hpr, htw, hclose]
  simp only [htake, hsep, hg1, hg2, hlenref]

/-- The regex never matches at a position whose character is not an
opening brace. -/
theorem matchAt_none_of_ne {c : Char} {l : List Char} (hc : c ≠ '\x7b') :
    matchAt (c :: l) = none := by
  have : ppHead.isPrefixOf (c :: l) = false := by
    by_contra h
    rw [Bool.not_eq_false, List.isPrefixOf_iff_prefix] at h
    rcases h with ⟨t, ht⟩
    rw [ppHead] at ht
    simp only [List.cons_append] at ht
    injection ht with h1 h2
    exact hc h1.symm
  rw [matchAt, this]
  simp

/-- Scanning skips plain text that contains no opening brace. -/
theorem findAll_append_plain {t rest : List Char}
    (h : ∀ c ∈ t, c ≠ '\x7b') :
    findAll (t ++ rest) = findAll rest := by
  induction t with
  | nil => simp
  | cons c cs ih =>
    rw [List.cons_append,
      findAll_cons_none (matchAt_none_of_ne (h c (List.mem_cons_self c cs))),
      ih (fun d hd => h d (List.mem_cons_of_mem c hd))]

theorem findAll_plain {t : List Char} (h : ∀ c ∈ t, c ≠ '\x7b') :
    findAll t = [] := by
  have := @findAll_append_plain t [] h
  rw [List.append_nil] at this
  rw [this, findAll_nil]

theorem charToNatOfNat {n : Nat} (h : n < 55296) : (Char.ofNat n).toNat = n := by
  have hv : n.isValidChar := Or.inl h
  rw [Char.ofNat, dif_pos hv]
  rfl

theorem toLower_ne_brace {c : Char} (h : c.isUpper = true) :
    c.toLower ≠ '\x7b' := by
  intro heq
  rw [Char.toLower] at heq
  simp only [Char.isUpper] at h
  have hand := (Bool.and_eq_true _ _).mp h
  have h65 : c.toNat ≥ 65 := by
    have h1 := hand.1; simp [decide_eq_true_iff] at h1; exact h1
  have h90 : c.toNat ≤ 90 := by
    have h2 := hand.2; simp [decide_eq_true_iff] at h2; exact h2
  rw [if_pos ⟨h65, h90⟩] at heq
  have hval : (Char.ofNat (c.toNat + 32)).toNat = c.toNat + 32 :=
    charToNatOfNat (by omega)
  have hcon : (Char.ofNat (c.toNat + 32)).toNat = ('\x7b' : Char).toNat := by
    rw [heq]
  rw [hval] at hcon
  have hbr : ('\x7b' : Char).toNat = 123 := by decide
  omega

/-- Membership in a concrete character list, against a fixed character. -/
theorem mem_concrete_ne {l : List Char} {d : Char}
    (hall : l.all (fun c => !(c == d)) = true) {c : Char} (hc : c ∈ l) :
    c ≠ d := by
  have := List.all_eq_true.mp hall c hc
  simpa using this

/-- The sanitizer never produces an opening brace. -/
theorem sanChar_ne_brace (b : Bool) (c : Char) : sanChar b c ≠ '\x7b' := by
  rw [sanChar]
  split
  case isTrue h =>
    intro heq
    subst heq
    simp [Char.isLower, Char.isDigit] at h
  case isFalse h1 =>
    split
    case isTrue h2 =>
      split
      case isTrue h3 =>
        intro heq
        subst heq
        simp [Char.isUpper] at h2
      case isFalse h3 => exact toLower_ne_brace h2
    case isFalse h2 =>
      decide

theorem sanitizeChars_no_brace (b : Bool) (l : List Char) :
    ∀ c ∈ sanitizeChars b l, c ≠ '\x7b' := by
  intro c hc
  rcases List.mem_map.mp hc with ⟨d, _, hd⟩
  rw [← hd]
  exact sanChar_ne_brace b d

/-- The replacement text never contains an opening brace (the capture
groups being identifier-only in canonical strings). -/
theorem refRepl_no_brace {op nm : List Char} (hnm : nm.all identChar = true) :
    ∀ c ∈ refRepl op nm, c ≠ '\x7b' := by
  intro c hc
  rw [refRepl] at hc
  split at hc
  · simp only [List.mem_append] at hc
    rcases hc with (h | h) | h
    · exact mem_concrete_ne (by decide) h
    · exact identChar_ne (List.all_eq_true.mp hnm c h) (by decide)
    · exact mem_concrete_ne (by decide) h
  · simp only [List.mem_append] at hc
    rcases hc with (((h | h) | h) | h) | h
    · exact mem_concrete_ne (by decide) h
    · exact sanitizeChars_no_brace false op c h
    · exact mem_concrete_ne (by decide) h
    · exact sanitizeChars_no_brace true nm c h
    · exact mem_concrete_ne (by decide) h

theorem refText_no_inner_brace {op nm : List Char}
    (hop : op.all identChar = true) (hnm : nm.all identChar = true) :
    ∀ c ∈ ppHead.drop 2 ++ op ++ ppSep ++ nm ++ ppClose, c ≠ '\x7b' := by
  intro c hc
  simp only [List.append_assoc, List.mem_append] at hc
  rcases hc with h | h | h | h | h
  · exact mem_concrete_ne (l := ppHead.drop 2) (by decide) h
  · exact identChar_ne (List.all_eq_true.mp hop c h) (by decide)
  · exact mem_concrete_ne (l := ppSep) (by decide) h
  · exact identChar_ne (List.all_eq_true.mp hnm c h) (by decide)
  · exact mem_concrete_ne (l := ppClose) (by decide) h

theorem replaceAll_nil {pat rep : List Char} : replaceAll [] pat rep = [] := by
  rw [replaceAll]
  split <;> rfl

theorem replaceAll_cons_pos {pat rep : List Char} {c : Char} {cs : List Char}
    (hpat : pat ≠ []) (h : pat.isPrefixOf (c :: cs) = true) :
    replaceAll (c :: cs) pat rep
      = rep ++ replaceAll ((c :: cs).drop pat.length) pat rep := by
  rw [replaceAll, replaceAll, if_neg hpat, if_neg hpat, List.length_cons,
    replaceAllGo, if_pos h]
  have hplen : 0 < pat.length := List.length_pos.mpr hpat
  rw [replaceAllGo_irrel hpat cs.length ((c :: cs).drop pat.length).length _
    (by simp; omega) (le_refl _)]

theorem replaceAll_cons_neg {pat rep : List Char} {c : Char} {cs : List Char}
    (hpat : pat ≠ []) (h : pat.isPrefixOf (c :: cs) = false) :
    replaceAll (c :: cs) pat rep = c :: replaceAll cs pat rep := by
  rw [replaceAll, replaceAll, if_neg hpat, if_neg hpat, List.length_cons,
    replaceAllGo, if_neg (by simp [h])]

/-- A pattern starting with a brace never matches inside brace-free text. -/
theorem replaceAll_append_plain {t rest pat rep : List Char} {p2 : List Char}
    (hpat : pat = '\x7b' :: p2) (h : ∀ c ∈ t, c ≠ '\x7b') :
    replaceAll (t ++ rest) pat rep = t ++ replaceAll rest pat rep := by
  induction t with
  | nil => simp
  | cons c cs ih =>
    have hc : c ≠ '\x7b' := h c (List.mem_cons_self c cs)
    have hne : pat.isPrefixOf (c :: (cs ++ rest)) = false := by
      rw [hpat]
      by_contra hcon
      rw [Bool.not_eq_false, List.isPrefixOf_iff_prefix] at hcon
      rcases hcon with ⟨t2, ht2⟩
      simp only [List.cons_append] at ht2
      injection ht2 with h1 h2
      exact hc h1.symm
    rw [List.cons_append, replaceAll_cons_neg (by rw [hpat]; simp) hne,
      ih (fun d hd => h d (List.mem_cons_of_mem c hd))]
    rfl

theorem replaceAll_plain {t pat rep : List Char} {p2 : List Char}
    (hpat : pat = '\x7b' :: p2) (h : ∀ c ∈ t, c ≠ '\x7b') :
    replaceAll t pat rep = t := by
  have := @replaceAll_append_plain t [] pat rep p2 hpat h
  rw [List.append_nil] at this
  rw [this, replaceAll_nil, List.append_nil]

/-- An exact occurrence of the pattern at the head is replaced. -/
theorem replaceAll_exact {pat rest rep : List Char} (hpat : pat ≠ []) :
    replaceAll (pat ++ rest) pat rep = rep ++ replaceAll rest pat rep := by
  cases hp : pat with
  | nil => exact absurd hp hpat
  | cons c p2 =>
    rw [← hp]
    have hpre : pat.isPrefixOf (pat ++ rest) = true := by
      rw [List.isPrefixOf_iff_prefix]
      exact List.prefix_append _ _
    have hshape : pat ++ rest = c :: (p2 ++ rest) := by
      rw [hp]; simp
    rw [hshape, replaceAll_cons_pos hpat (by rw [← hshape]; exact hpre),
      ← hshape, List.drop_left]

/-- Two canonical reference texts with different capture pairs never
overlap: the earlier one is not a prefix of the latter one (plus any
continuation). -/
theorem refText_not_prefix {op nm op2 nm2 rest : List Char}
    (hop : op.all identChar = true) (hnm : nm.all identChar = true)
    (hop2 : op2.all identChar = true) (hnm2 : nm2.all identChar = true)
    (hne : ¬ (op2 = op ∧ nm2 = nm)) :
    (refText op2 nm2).isPrefixOf (refText op nm ++ rest) = false := by
  by_contra hcon
  rw [Bool.not_eq_false, List.isPrefixOf_iff_prefix] at hcon
  have hsh1 : refText op2 nm2
      = ppHead ++ (op2 ++ (';' :: (sepTail ++ (nm2 ++ ('\x7d' :: ['\x7d'])))))
      := by
    rw [refText, ppSep, ppClose]
    simp [List.append_assoc]
  have hsh2 : refText op nm ++ rest
      = ppHead ++ (op ++ (';' :: (sepTail ++ (nm ++ ('\x7d'
        :: ('\x7d' :: rest)))))) := by
    rw [refText, ppSep, ppClose]
    simp [List.append_assoc]
  rw [hsh1, hsh2] at hcon
  have hcan := prefix_cancel hcon
  have hsemi2 : ';' ∉ op2 := ident_not_mem hop2 (by decide)
  have hsemi : ';' ∉ op := ident_not_mem hop (by decide)
  rcases prefix_sep_eq hsemi2 hsemi hcan with ⟨hopeq, hcan2⟩
  have hcan3 := prefix_cancel hcan2
  have hbr2 : '\x7d' ∉ nm2 := ident_not_mem hnm2 (by decide)
  have hbr : '\x7d' ∉ nm := ident_not_mem hnm (by decide)
  rcases prefix_sep_eq hbr2 hbr hcan3 with ⟨hnmeq, _⟩
  exact hne ⟨hopeq, hnmeq⟩

/-- Replacement walks over a complete canonical reference with a different
capture pair without touching it. -/
theorem replaceAll_skip_ref {op nm op2 nm2 rest rep : List Char}
    (hop : op.all identChar = true) (hnm : nm.all identChar = true)
    (hop2 : op2.all identChar = true) (hnm2 : nm2.all identChar = true)
    (hne : ¬ (op2 = op ∧ nm2 = nm)) :
    replaceAll (refText op nm ++ rest) (refText op2 nm2) rep
      = refText op nm ++ replaceAll rest (refText op2 nm2) rep := by
  have hpne : refText op2 nm2 ≠ [] := by
    rw [refText, ppHead]; simp
  have hbody : refText op nm
      = '\x7b' :: '\x7b' :: (ppHead.drop 2 ++ op ++ ppSep ++ nm ++ ppClose)
      := by
    rw [refText, ppHead]
    simp [List.append_assoc]
  have hshape2 : refText op2 nm2 = '\x7b' :: '\x7b'
      :: (ppHead.drop 2 ++ op2 ++ ppSep ++ nm2 ++ ppClose) := by
    rw [refText, ppHead]
    simp [List.append_assoc]
  have hstep1 : (refText op2 nm2).isPrefixOf (refText op nm ++ rest)
      = false := refText_not_prefix hop hnm hop2 hnm2 hne
  have hstep2 : (refText op2 nm2).isPrefixOf
      ('\x7b' :: (ppHead.drop 2 ++ op ++ ppSep ++ nm ++ ppClose ++ rest))
      = false := by
    rw [hshape2]
    by_contra hcon
    rw [Bool.not_eq_false, List.isPrefixOf_iff_prefix] at hcon
    rcases hcon with ⟨t2, ht2⟩
    rw [show ppHead.drop 2
      = 'p' :: ['i', 'p', 'e', 'l', 'i', 'n', 'e', 'p', 'a', 'r', 'a', 'm',
        ':', 'o', 'p', '='] from by rw [ppHead]; rfl] at ht2
    simp only [List.cons_append, List.append_assoc] at ht2
    injection ht2 with h1 h2
    injection h2 with h3 h4
    exact absurd h3 (by decide)
  have hfin : replaceAll (ppHead.drop 2 ++ op ++ ppSep ++ nm ++ ppClose
        ++ rest) (refText op2 nm2) rep
      = (ppHead.drop 2 ++ op ++ ppSep ++ nm ++ ppClose)
        ++ replaceAll rest (refText op2 nm2) rep := by
    rw [show ppHead.drop 2 ++ op ++ ppSep ++ nm ++ ppClose ++ rest
        = (ppHead.drop 2 ++ op ++ ppSep ++ nm ++ ppClose) ++ rest from by
      simp [List.append_assoc]]
    exact replaceAll_append_plain hshape2 (refText_no_inner_brace hop hnm)
  calc replaceAll (refText op nm ++ rest) (refText op2 nm2) rep
      = '\x7b' :: replaceAll ('\x7b' :: (ppHead.drop 2 ++ op ++ ppSep ++ nm
          ++ ppClose ++ rest)) (refText op2 nm2) rep := by
        rw [show refText op nm ++ rest = '\x7b' :: ('\x7b'
          :: (ppHead.drop 2 ++ op ++ ppSep ++ nm ++ ppClose ++ rest)) from by
          rw [hbody]; simp [List.append_assoc]]
        rw [replaceAll_cons_neg hpne (by
          rw [← show refText op nm ++ rest = '\x7b' :: ('\x7b'
            :: (ppHead.drop 2 ++ op ++ ppSep ++ nm ++ ppClose ++ rest)) from by
            rw [hbody]; simp [List.append_assoc]]
          exact hstep1)]
    _ = '\x7b' :: '\x7b' :: replaceAll (ppHead.drop 2 ++ op ++ ppSep ++ nm
          ++ ppClose ++ rest) (refText op2 nm2) rep := by
        rw [replaceAll_cons_neg hpne hstep2]
    _ = refText op nm ++ replaceAll rest (refText op2 nm2) rep := by
        rw [hfin, hbody]
        simp [List.append_assoc]

/-! ### Canonical alternation of text and references -/

/-- One alternation unit of a canonical string: literal text followed by
an embedded reference with the given capture groups. -/
structure RefSeg where
  txt : List Char
  opPart : List Char
  nmPart : List Char

/-- Rebuild the raw string from segments and a trailing text. -/
def renderSegs : List RefSeg → List Char → List Char
  | [], t0 => t0
  | sg :: rest, t0 =>
    sg.txt ++ (refText sg.opPart sg.nmPart ++ renderSegs rest t0)

/-- Rebuild the string with the references of the pairs in `done`
already substituted. -/
def renderMix : List RefSeg → List Char →
    List (List Char × List Char) → List Char
  | [], t0, _ => t0
  | sg :: rest, t0, done =>
    sg.txt ++ ((if (sg.opPart, sg.nmPart) ∈ done
      then refRepl sg.opPart sg.nmPart
      else refText sg.opPart sg.nmPart) ++ renderMix rest t0 done)

/-- Brace-free literal text. -/
def plainTxt (t : List Char) : Prop := ∀ c ∈ t, c ≠ '\x7b' ∧ c ≠ '\x7d'

/-- Canonical form: brace-free texts, identifier capture groups, and a
token-breaking character between two consecutive references. -/
def CanonFrom : List RefSeg → List Char → Prop
  | [], t0 => plainTxt t0
  | sg :: rest, t0 => plainTxt sg.txt ∧ sg.opPart.all identChar = true ∧
      sg.nmPart.all identChar = true ∧
      (match rest with
       | [] => True
       | sg2 :: _ => ∃ c ∈ sg2.txt, tokChar c = false) ∧
      CanonFrom rest t0

/-- The capture pairs of the segments, in order. -/
def allPairs (segs : List RefSeg) : List (List Char × List Char) :=
  segs.map (fun sg => (sg.opPart, sg.nmPart))

theorem refText_cons (op nm : List Char) :
    refText op nm = '\x7b' :: ('\x7b'
      :: (ppHead.drop 2 ++ op ++ ppSep ++ nm ++ ppClose)) := by
  rw [refText, ppHead]
  simp [List.append_assoc]

theorem canon_ext_nil {t0 : List Char} (h : plainTxt t0) :
    '\x7d' ∉ (renderSegs [] t0).takeWhile tokChar := by
  intro hc
  exact ((h _ (takeWhile_sub _ hc)).2) rfl

theorem canon_ext_cons {sg2 : RefSeg} {r : List RefSeg} {t0 : List Char}
    (hplain : plainTxt sg2.txt)
    (hbrk : ∃ c ∈ sg2.txt, tokChar c = false) :
    '\x7d' ∉ (renderSegs (sg2 :: r) t0).takeWhile tokChar := by
  rw [renderSegs]
  intro hc
  rw [takeWhile_append_stop hbrk] at hc
  exact ((hplain _ (takeWhile_sub _ hc)).2) rfl

theorem canon_pairs_ident {segs : List RefSeg} {t0 : List Char}
    (h : CanonFrom segs t0) :
    ∀ p ∈ allPairs segs, p.1.all identChar = true
      ∧ p.2.all identChar = true := by
  induction segs with
  | nil => intro p hp; simp [allPairs] at hp
  | cons sg rest ih =>
    intro p hp
    rw [allPairs, List.map_cons] at hp
    rcases List.mem_cons.mp hp with rfl | hmem
    · exact ⟨h.2.1, h.2.2.1⟩
    · exact ih h.2.2.2.2 p hmem

theorem findAll_eq_of_matchAt {l op nm : List Char} {k : Nat}
    (h : matchAt l = some (op, nm, k)) :
    findAll l = (op, nm) :: findAll (l.drop k) := by
  cases l with
  | nil =>
    have := (matchAt_consumed_pos h).2
    exact absurd rfl this
  | cons c cs => exact findAll_cons_some h

/-- On a canonical string, the scan finds exactly the references, in
order, with the exact capture pairs. -/
theorem findAll_render {segs : List RefSeg} {t0 : List Char}
    (h : CanonFrom segs t0) :
    findAll (renderSegs segs t0) = allPairs segs := by
  induction segs with
  | nil =>
    rw [renderSegs, allPairs, List.map_nil]
    exact findAll_plain (fun c hc => (h c hc).1)
  | cons sg rest ih =>
    obtain ⟨hp, hop, hnm, hsep, hrest⟩ := h
    rw [renderSegs, findAll_append_plain (fun c hc => (hp c hc).1)]
    have hext : '\x7d' ∉ (renderSegs rest t0).takeWhile tokChar := by
      cases rest with
      | nil => exact canon_ext_nil hrest
      | cons sg2 r => exact canon_ext_cons hrest.1 hsep
    have hm := matchAt_canonical hop hnm hext
    rw [findAll_eq_of_matchAt hm, List.drop_left, ih hrest]
    rfl

/-- `renderMix` only depends on the membership content of `done`. -/
theorem renderMix_congr {segs : List RefSeg} {t0 : List Char}
    {d1 d2 : List (List Char × List Char)}
    (h : ∀ p, p ∈ d1 ↔ p ∈ d2) :
    renderMix segs t0 d1 = renderMix segs t0 d2 := by
  induction segs with
  | nil => rw [renderMix, renderMix]
  | cons sg rest ih =>
    rw [renderMix, renderMix, ih]
    by_cases hmem : (sg.opPart, sg.nmPart) ∈ d1
    · rw [if_pos hmem, if_pos ((h _).mp hmem)]
    · rw [if_neg hmem, if_neg (fun hc => hmem ((h _).mpr hc))]

theorem renderMix_nil_done {segs : List RefSeg} {t0 : List Char} :
    renderMix segs t0 [] = renderSegs segs t0 := by
  induction segs with
  | nil => rw [renderMix, renderSegs]
  | cons sg rest ih =>
    rw [renderMix, renderSegs, ih]
    simp

/-- A full replacement pass over a partially substituted canonical
string substitutes exactly the references with the processed pair. -/
theorem replaceAll_renderMix {q1 q2 : List Char} {segs : List RefSeg}
    {t0 : List Char} {done : List (List Char × List Char)}
    (hq1 : q1.all identChar = true) (hq2 : q2.all identChar = true)
    (h : CanonFrom segs t0) :
    replaceAll (renderMix segs t0 done) (refText q1 q2) (refRepl q1 q2)
      = renderMix segs t0 ((q1, q2) :: done) := by
  induction segs generalizing done with
  | nil =>
    rw [renderMix, renderMix]
    exact replaceAll_plain (refText_cons q1 q2) (fun c hc => (h c hc).1)
  | cons sg rest ih =>
    obtain ⟨hp, hop, hnm, hsep, hrest⟩ := h
    rw [renderMix,
      replaceAll_append_plain (refText_cons q1 q2) (fun c hc => (hp c hc).1)]
    by_cases hmem : (sg.opPart, sg.nmPart) ∈ done
    · rw [if_pos hmem,
        replaceAll_append_plain (refText_cons q1 q2) (refRepl_no_brace hnm),
        ih hrest, renderMix, if_pos (List.mem_cons_of_mem _ hmem)]
    · rw [if_neg hmem]
      by_cases heq : q1 = sg.opPart ∧ q2 = sg.nmPart
      · obtain ⟨e1, e2⟩ := heq
        subst e1; subst e2
        rw [replaceAll_exact (by rw [refText_cons]; simp), ih hrest,
          renderMix, if_pos (List.mem_cons_self _ _)]
      · rw [replaceAll_skip_ref hop hnm hq1 hq2 heq, ih hrest, renderMix,
          if_neg (by
            intro hc
            rcases List.mem_cons.mp hc with he | hm
            · exact heq ⟨congrArg Prod.fst he.symm,
                congrArg Prod.snd he.symm⟩
            · exact hmem hm)]

theorem foldl_replace_render {segs : List RefSeg} {t0 : List Char}
    (h : CanonFrom segs t0) :
    ∀ (ps : List (List Char × List Char))
      (done : List (List Char × List Char)),
      (∀ p ∈ ps, p.1.all identChar = true ∧ p.2.all identChar = true) →
      ps.foldl (fun acc p =>
          replaceAll acc (refText p.1 p.2) (refRepl p.1 p.2))
        (renderMix segs t0 done)
      = renderMix segs t0 (ps.reverse ++ done) := by
  intro ps
  induction ps with
  | nil =>
    intro done _
    rw [List.foldl_nil, List.reverse_nil, List.nil_append]
  | cons q qs ih =>
    intro done hps
    rw [List.foldl_cons,
      replaceAll_renderMix (hps q (List.mem_cons_self q qs)).1
        (hps q (List.mem_cons_self q qs)).2 h,
      ih ((q.1, q.2) :: done) (fun p hp => hps p (List.mem_cons_of_mem q hp))]
    apply renderMix_congr
    intro p
    simp only [List.reverse_cons, List.mem_append, List.mem_cons,
      List.mem_reverse, List.mem_singleton]
    tauto

theorem guard_true_cons {sg : RefSeg} {rest : List RefSeg} {t0 : List Char} :
    containsSub ppGuard (renderSegs (sg :: rest) t0) = true := by
  rw [containsSub_iff]
  refine ⟨sg.txt.length, ?_, ?_⟩
  · rw [renderSegs]; simp
  · rw [renderSegs, List.drop_left]
    have h1 : ppGuard <+: ppHead := ⟨[':', 'o', 'p', '='], by decide⟩
    have h2 : ppHead <+: refText sg.opPart sg.nmPart
        ++ renderSegs rest t0 := by
      refine ⟨sg.opPart ++ ppSep ++ sg.nmPart ++ ppClose
        ++ renderSegs rest t0, ?_⟩
      rw [refText]
      simp [List.append_assoc]
    exact h1.trans h2

theorem containsSub_ppGuard_false {l : List Char}
    (h : ∀ c ∈ l, c ≠ '\x7b') :
    containsSub ppGuard l = false := by
  by_contra hc
  rw [Bool.not_eq_false, containsSub_iff] at hc
  rcases hc with ⟨j, hj, hpre⟩
  rcases hpre with ⟨t, ht⟩
  have hmem : '\x7b' ∈ l.drop j := by
    rw [← ht, ppGuard]
    simp
  exact h _ (List.drop_subset _ _ hmem) rfl

/-- After all pairs are substituted, the canonical string is brace-free. -/
theorem mix_no_brace {segs : List RefSeg} {t0 : List Char}
    {done : List (List Char × List Char)} (h : CanonFrom segs t0)
    (hdone : ∀ sg ∈ segs, (sg.opPart, sg.nmPart) ∈ done) :
    ∀ c ∈ renderMix segs t0 done, c ≠ '\x7b' := by
  induction segs with
  | nil =>
    intro c hc
    rw [renderMix] at hc
    exact (h c hc).1
  | cons sg rest ih =>
    intro c hc
    rw [renderMix] at hc
    simp only [List.mem_append] at hc
    rcases hc with hc | hc | hc
    · exact (h.1 c hc).1
    · rw [if_pos (hdone sg (List.mem_cons_self sg rest))] at hc
      exact refRepl_no_brace h.2.2.1 c hc
    · exact ih h.2.2.2.2
        (fun sg2 hs => hdone sg2 (List.mem_cons_of_mem sg hs)) c hc

/-- One application of the rewriter over a canonical string substitutes
every embedded reference. -/
theorem process_canonical {segs : List RefSeg} {t0 : List Char}
    (h : CanonFrom segs t0) :
    process_pipelineparam ⟨renderSegs segs t0⟩
      = ⟨renderMix segs t0 (allPairs segs)⟩ := by
  cases segs with
  | nil =>
    rw [process_pipelineparam]
    have hguard : containsSub ppGuard (String.mk (renderSegs [] t0)).data
        = false := by
      show containsSub ppGuard (renderSegs [] t0) = false
      rw [renderSegs]
      exact containsSub_ppGuard_false (fun c hc => (h c hc).1)
    rw [hguard]
    simp only [Bool.false_eq_true, if_false]
    rw [renderMix, renderSegs]
  | cons sg rest =>
    rw [process_pipelineparam]
    have hguard : containsSub ppGuard
        (String.mk (renderSegs (sg :: rest) t0)).data = true := by
      show containsSub ppGuard (renderSegs (sg :: rest) t0) = true
      exact guard_true_cons
    rw [hguard, if_pos rfl]
    have hdata : (String.mk (renderSegs (sg :: rest) t0)).data
        = renderSegs (sg :: rest) t0 := rfl
    rw [hdata, findAll_render h]
    have hfold := foldl_replace_render h (allPairs (sg :: rest)) []
      (canon_pairs_ident h)
    rw [renderMix_nil_done] at hfold
    rw [hfold]
    congr 1
    apply renderMix_congr
    intro p
    simp

/-- A second application leaves the once-rewritten canonical string
unchanged. -/
theorem process_canonical_twice {segs : List RefSeg} {t0 : List Char}
    (h : CanonFrom segs t0) :
    process_pipelineparam (process_pipelineparam ⟨renderSegs segs t0⟩)
      = process_pipelineparam ⟨renderSegs segs t0⟩ := by
  rw [process_canonical h]
  rw [process_pipelineparam]
  have hguard : containsSub ppGuard
      (String.mk (renderMix segs t0 (allPairs segs))).data = false := by
    show containsSub ppGuard (renderMix segs t0 (allPairs segs)) = false
    exact containsSub_ppGuard_false
      (mix_no_brace h (fun sg hs => List.mem_map_of_mem _ hs))
  rw [hguard]
  simp

theorem plainTxt_of_all {t : List Char}
    (h : t.all (fun c => !(c == '\x7b') && !(c == '\x7d')) = true) :
    plainTxt t := by
  intro c hc
  have := List.all_eq_true.mp h c hc
  constructor
  · simpa using ((Bool.and_eq_true _ _).mp this).1
  · simpa using ((Bool.and_eq_true _ _).mp this).2

theorem breaker_of_any {t : List Char}
    (h : t.any (fun c => !(tokChar c)) = true) :
    ∃ c ∈ t, tokChar c = false := by
  rcases List.any_eq_true.mp h with ⟨c, hc, hcf⟩
  exact ⟨c, hc, by simpa using hcf⟩

/-- C4: the claim as frozen is false on the code.  The rewriter
`process_pipelineparam` is not idempotent: on a string whose second
reference contains the first reference nested inside its producer
position, the first application replaces the inner occurrence everywhere
(Python `str.replace` replaces all occurrences) and leaves a freshly
exposed complete reference pattern, which a second application then
rewrites further. -/
theorem claim_C4_counterexample :
    process_pipelineparam (process_pipelineparam
      "\x7b\x7bpipelineparam:op=;name=B\x7d\x7d \x7b\x7bpipelineparam:op=\x7b\x7bpipelineparam:op=;name=B\x7d\x7d;name=y\x7d\x7d")
    ≠ process_pipelineparam
      "\x7b\x7bpipelineparam:op=;name=B\x7d\x7d \x7b\x7bpipelineparam:op=\x7b\x7bpipelineparam:op=;name=B\x7d\x7d;name=y\x7d\x7d" := by
  decide

/-- C4 (amended): on strings in canonical form - brace-free literal text
alternating with references whose producer and parameter names use the
identifier charset, consecutive references separated by a token-breaking
character (so references do not nest) - a single application of the
rewriter replaces every embedded reference with the engine substitution
syntax, and the rewriter is idempotent: a second application returns the
rewritten string unchanged. -/
theorem claim_C4_rewriter_canonical {segs : List RefSeg} {t0 : List Char}
    (h : CanonFrom segs t0) :
    process_pipelineparam ⟨renderSegs segs t0⟩
      = ⟨renderMix segs t0 (allPairs segs)⟩
    ∧ process_pipelineparam (process_pipelineparam ⟨renderSegs segs t0⟩)
      = process_pipelineparam ⟨renderSegs segs t0⟩ :=
  ⟨process_canonical h, process_canonical_twice h⟩

theorem claim_C4_witness :
    CanonFrom [⟨['a', ' '], [], ['x']⟩,
      ⟨[' ', 'b', ' '], ['p'], ['y']⟩] [' ', 'c']
    ∧ (process_pipelineparam ⟨renderSegs [⟨['a', ' '], [], ['x']⟩,
        ⟨[' ', 'b', ' '], ['p'], ['y']⟩] [' ', 'c']⟩
      = ⟨renderMix [⟨['a', ' '], [], ['x']⟩,
        ⟨[' ', 'b', ' '], ['p'], ['y']⟩] [' ', 'c']
        (allPairs [⟨['a', ' '], [], ['x']⟩, ⟨[' ', 'b', ' '], ['p'], ['y']⟩])⟩
    ∧ process_pipelineparam (process_pipelineparam
        ⟨renderSegs [⟨['a', ' '], [], ['x']⟩,
          ⟨[' ', 'b', ' '], ['p'], ['y']⟩] [' ', 'c']⟩)
      = process_pipelineparam ⟨renderSegs [⟨['a', ' '], [], ['x']⟩,
          ⟨[' ', 'b', ' '], ['p'], ['y']⟩] [' ', 'c']⟩) := by
  have hcanon : CanonFrom [⟨['a', ' '], [], ['x']⟩,
      ⟨[' ', 'b', ' '], ['p'], ['y']⟩] [' ', 'c'] :=
    ⟨plainTxt_of_all (by decide), by decide, by decide,
      breaker_of_any (by decide),
      plainTxt_of_all (by decide), by decide, by decide, trivial,
      plainTxt_of_all (by decide)⟩
  exact ⟨hcanon, claim_C4_rewriter_canonical hcanon⟩

/-- C5: for a reference with a non-empty producer name (an upstream task
result), the emitted substitution sanitizes the producer and re-sanitizes
the parameter name (capitals allowed); for a reference with an empty
producer (a pipeline-level input) the parameter name is emitted exactly
as given, with no sanitization. -/
theorem claim_C5_sanitize_asymmetry {op nm : List Char}
    (hop : op.all identChar = true) (hnm : nm.all identChar = true) :
    (op = [] →
      process_pipelineparam ⟨refText op nm⟩
        = ⟨['$', '(', 'p', 'a', 'r', 'a', 'm', 's', '.'] ++ nm ++ [')']⟩)
    ∧ (op ≠ [] →
      process_pipelineparam ⟨refText op nm⟩
        = ⟨['$', '(', 't', 'a', 's', 'k', 's', '.'] ++ sanitizeChars false op
          ++ ['.', 'r', 'e', 's', 'u', 'l', 't', 's', '.']
          ++ sanitizeChars true nm ++ [')']⟩) := by
  have hplainnil : plainTxt ([] : List Char) := by
    intro c hc
    exact absurd hc (List.not_mem_nil c)
  have hcanon : CanonFrom [⟨[], op, nm⟩] [] :=
    ⟨hplainnil, hop, hnm, trivial, hplainnil⟩
  have hrender : renderSegs [⟨[], op, nm⟩] [] = refText op nm := by
    rw [renderSegs, renderSegs]
    simp
  have hmix : renderMix [⟨[], op, nm⟩] []
      (allPairs [⟨[], op, nm⟩]) = refRepl op nm := by
    rw [renderMix, renderMix, if_pos (by rw [allPairs]; simp)]
    simp
  have hmain : process_pipelineparam ⟨refText op nm⟩ = ⟨refRepl op nm⟩ := by
    rw [← hrender, process_canonical hcanon, hmix]
  constructor
  · intro hempty
    rw [hmain, refRepl, if_pos (by rw [hempty]; rfl)]
  · intro hnonempty
    rw [hmain, refRepl,
      if_neg (by cases hc : op with
        | nil => exact absurd hc hnonempty
        | cons a as => simp)]

theorem claim_C5_witness :
    (['M', 'y', '_', 'P'].all identChar = true)
    ∧ process_pipelineparam ⟨refText [] ['M', 'y', '_', 'P']⟩
      = ⟨['$', '(', 'p', 'a', 'r', 'a', 'm', 's', '.']
        ++ ['M', 'y', '_', 'P'] ++ [')']⟩
    ∧ process_pipelineparam ⟨refText ['p'] ['M', 'y', '_', 'P']⟩
      = ⟨['$', '(', 't', 'a', 's', 'k', 's', '.']
        ++ sanitizeChars false ['p']
        ++ ['.', 'r', 'e', 's', 'u', 'l', 't', 's', '.']
        ++ sanitizeChars true ['M', 'y', '_', 'P'] ++ [')']⟩
    ∧ sanitizeChars true ['M', 'y', '_', 'P'] ≠ ['M', 'y', '_', 'P'] := by
  refine ⟨by decide, ?_, ?_, by decide⟩
  · exact (claim_C5_sanitize_asymmetry (by decide) (by decide)).1 rfl
  · exact (claim_C5_sanitize_asymmetry (by decide) (by decide)).2
      (by simp)

/-! ## Static loop-item serialization (`_group_to_dag_template`)

Source, `compiler.py` lines 518-550: for a loop over a static list of
composite (key-value) items, every `dsl.PipelineParam` value is rewritten
to the engine substitution syntax, every plain string value is passed
through `process_pipelineparam`, every key is sanitized, and the
resulting list of records is serialized with `json.dumps(sort_keys=True)`. -/

/-- Modelled from the spec: sanitizer variant with capitals and
underscores allowed (`sanitize_k8s_name(k, True)`). -/
def sanCharU (c : Char) : Char :=
  if c.isLower || c.isDigit || c = '-' || c = '_' || c.isUpper then c
  else '-'

/-- Modelled from the spec: `sanitize_k8s_name(name, True)` on strings. -/
def sanitize_k8s_name_cu (s : String) : String :=
  ⟨s.data.map sanCharU⟩

/-- A value of a static loop-item record. -/
inductive LoopVal where
  | pp (opName : Option String) (name : String)
  | sv (s : String)
  | iv (n : Int)
  | bv (b : Bool)
deriving DecidableEq

/-- A scalar of the serialized JSON document. -/
inductive JScalar where
  | js (s : String)
  | ji (n : Int)
  | jb (b : Bool)
deriving DecidableEq

/-- Rewriting of one record value (source lines 526-537): parameter
references become engine substitutions, strings run through
`process_pipelineparam`, other scalars pass through unchanged. -/
def rewriteLoopVal : LoopVal → JScalar
  | .pp none name => .js ("$(params." ++ name ++ ")")
  | .pp (some opName) name =>
    .js ("$(tasks." ++ sanitize_k8s_name false opName ++ ".results."
      ++ sanitize_k8s_name true name ++ ")")
  | .sv s => .js (process_pipelineparam s)
  | .iv n => .ji n
  | .bv b => .jb b

/-- Python dictionary insertion: an existing key keeps its position and
gets the new value, a new key is appended. -/
def dictInsert (d : List (String × JScalar)) (k : String) (v : JScalar) :
    List (String × JScalar) :=
  if d.any (fun e => e.1 = k) then
    d.map (fun e => if e.1 = k then (k, v) else e)
  else d ++ [(k, v)]

/-- `c_dict` construction for one record (source lines 525-538). -/
def buildRecord (rec : List (String × LoopVal)) : List (String × JScalar) :=
  rec.foldl
    (fun acc e => dictInsert acc (sanitize_k8s_name_cu e.1)
      (rewriteLoopVal e.2)) []

/-- Minimal JSON string escaping (ASCII control and unicode escapes
elided; the compiler only meets tame identifier-like payloads here). -/
def escChar (c : Char) : List Char :=
  if c = '"' then ['\\', '"']
  else if c = '\\' then ['\\', '\\']
  else if c = '\n' then ['\\', 'n']
  else if c = '\t' then ['\\', 't']
  else if c = '\r' then ['\\', 'r']
  else [c]

def jsonEscape (s : String) : String :=
  ⟨s.data.foldr (fun c acc => escChar c ++ acc) []⟩

def dumpScalar : JScalar → String
  | .js s => "\"" ++ jsonEscape s ++ "\""
  | .ji n => toString n
  | .jb true => "true"
  | .jb false => "false"

/-- `sort_keys=True`: serialize a record's fields in key order. -/
def sortByKey (d : List (String × JScalar)) : List (String × JScalar) :=
  d.mergeSort (fun a b => decide (a.1 ≤ b.1))

def dumpRecord (d : List (String × JScalar)) : String :=
  "\x7b" ++ String.intercalate ", "
    ((sortByKey d).map
      (fun e => "\"" ++ jsonEscape e.1 ++ "\": " ++ dumpScalar e.2))
  ++ "\x7d"

/-- `json.dumps(sanitized_tasks, sort_keys=True)` over the rewritten
records (source line 540). -/
def serializeLoopItems (items : List (List (String × LoopVal))) : String :=
  "[" ++ String.intercalate ", " (items.map (fun r => dumpRecord
    (buildRecord r))) ++ "]"

/-- The sanitized keys of a raw record, in order. -/
def sanKeys (rec : List (String × LoopVal)) : List String :=
  rec.map (fun e => sanitize_k8s_name_cu e.1)

theorem dictInsert_not_mem {d : List (String × JScalar)} {k : String}
    {v : JScalar} (h : ∀ e ∈ d, e.1 ≠ k) :
    dictInsert d k v = d ++ [(k, v)] := by
  rw [dictInsert, if_neg]
  intro hc
  rcases List.any_eq_true.mp hc with ⟨e, he, heq⟩
  exact h e he (by simpa using heq)

theorem buildRecord_map {rec : List (String × LoopVal)}
    (hnd : (sanKeys rec).Nodup) :
    buildRecord rec
      = rec.map (fun e => (sanitize_k8s_name_cu e.1, rewriteLoopVal e.2))
    := by
  rw [buildRecord]
  suffices hgen : ∀ (rec2 : List (String × LoopVal))
      (acc : List (String × JScalar)),
      (sanKeys rec2).Nodup →
      (∀ a ∈ acc, ∀ e ∈ rec2, a.1 ≠ sanitize_k8s_name_cu e.1) →
      rec2.foldl (fun acc e => dictInsert acc (sanitize_k8s_name_cu e.1)
          (rewriteLoopVal e.2)) acc
        = acc ++ rec2.map
          (fun e => (sanitize_k8s_name_cu e.1, rewriteLoopVal e.2)) by
    have := hgen rec [] hnd (by intro a ha; simp at ha)
    rw [this, List.nil_append]
  intro rec2
  induction rec2 with
  | nil =>
    intro acc _ _
    simp
  | cons e rest ih =>
    intro acc hnd2 hdisj
    rw [List.foldl_cons,
      dictInsert_not_mem (fun a ha =>
        hdisj a ha e (List.mem_cons_self e rest))]
    rw [sanKeys, List.map_cons, List.nodup_cons] at hnd2
    rw [ih (acc ++ [(sanitize_k8s_name_cu e.1, rewriteLoopVal e.2)]) hnd2.2
      (by
        intro a ha e2 he2
        rcases List.mem_append.mp ha with hin | hin
        · exact hdisj a hin e2 (List.mem_cons_of_mem e he2)
        · rcases List.mem_singleton.mp hin with rfl
          intro hc
          have hc2 : sanitize_k8s_name_cu e.1 = sanitize_k8s_name_cu e2.1
            := hc
          exact hnd2.1 (by
            rw [hc2]
            exact List.mem_map_of_mem _ he2))]
    simp

/-- Two sorted association lists with the same key multiset and
duplicate-free keys coincide. -/
theorem sorted_nodupkeys_perm_eq :
    ∀ (s1 s2 : List (String × JScalar)),
    s1.Perm s2 →
    s1.Pairwise (fun a b => a.1 ≤ b.1) →
    s2.Pairwise (fun a b => a.1 ≤ b.1) →
    (s1.map Prod.fst).Nodup →
    s1 = s2 := by
  intro s1
  induction s1 with
  | nil =>
    intro s2 hperm _ _ _
    exact List.Perm.nil_eq hperm
  | cons a t1 ih =>
    intro s2 hperm hs1 hs2 hnd
    cases s2 with
    | nil => exact absurd hperm.symm (by simp)
    | cons b t2 =>
      have hab : a = b := by
        have hbmem : b ∈ a :: t1 := hperm.mem_iff.mpr
          (List.mem_cons_self b t2)
        have hamem : a ∈ b :: t2 := hperm.mem_iff.mp
          (List.mem_cons_self a t1)
        rcases List.mem_cons.mp hbmem with heq | hbt1
        · exact heq.symm
        rcases List.mem_cons.mp hamem with heq | hat2
        · exact heq
        have h1 : a.1 ≤ b.1 := (List.pairwise_cons.mp hs1).1 b hbt1
        have h2 : b.1 ≤ a.1 := (List.pairwise_cons.mp hs2).1 a hat2
        have hkey : a.1 = b.1 := le_antisymm h1 h2
        have : a.1 ∈ t1.map Prod.fst := by
          rw [hkey]
          exact List.mem_map_of_mem _ hbt1
        exact absurd this (List.nodup_cons.mp hnd).1
      subst hab
      have hperm2 : t1.Perm t2 := (List.perm_cons a).mp hperm
      rw [ih t2 hperm2 (List.pairwise_cons.mp hs1).2
        (List.pairwise_cons.mp hs2).2 (List.nodup_cons.mp hnd).2]

theorem keyLe_trans : ∀ (a b c : String × JScalar),
    decide (a.1 ≤ b.1) = true → decide (b.1 ≤ c.1) = true →
    decide (a.1 ≤ c.1) = true := by
  intro a b c h1 h2
  simp only [decide_eq_true_iff] at h1 h2 ⊢
  exact le_trans h1 h2

theorem keyLe_total : ∀ (a b : String × JScalar),
    (decide (a.1 ≤ b.1) || decide (b.1 ≤ a.1)) = true := by
  intro a b
  rcases le_total a.1 b.1 with h | h <;> simp [h]

theorem sortByKey_perm_eq {d1 d2 : List (String × JScalar)}
    (hperm : d1.Perm d2) (hnd : (d1.map Prod.fst).Nodup) :
    sortByKey d1 = sortByKey d2 := by
  have hp1 := List.mergeSort_perm d1 (fun a b => decide (a.1 ≤ b.1))
  have hp2 := List.mergeSort_perm d2 (fun a b => decide (a.1 ≤ b.1))
  have hs1 := List.sorted_mergeSort keyLe_trans keyLe_total d1
  have hs2 := List.sorted_mergeSort keyLe_trans keyLe_total d2
  apply sorted_nodupkeys_perm_eq
  · exact hp1.trans (hperm.trans hp2.symm)
  · exact hs1.imp (by intro a b h; simpa using h)
  · exact hs2.imp (by intro a b h; simpa using h)
  · exact (hp1.map Prod.fst).nodup_iff.mpr hnd

/-- C8: serializing a static composite loop list is deterministic in the
record key order - two static lists whose records enumerate the same
key-value pairs in any order serialize to byte-identical output
(given duplicate-free sanitized keys) - and the serialization first
sanitizes every record key and rewrites every parameter-reference value
to the engine substitution syntax. -/
theorem claim_C8_loop_serialization
    {items items2 : List (List (String × LoopVal))}
    (hperm : List.Forall₂ (fun r1 r2 => r1.Perm r2) items items2)
    (hnd : ∀ r ∈ items, (sanKeys r).Nodup) :
    serializeLoopItems items = serializeLoopItems items2
    ∧ serializeLoopItems items
      = "[" ++ String.intercalate ", " (items.map (fun r => dumpRecord
          (r.map (fun e =>
            (sanitize_k8s_name_cu e.1, rewriteLoopVal e.2))))) ++ "]" := by
  constructor
  · rw [serializeLoopItems, serializeLoopItems]
    congr 1
    congr 1
    congr 1
    induction hperm with
    | nil => rfl
    | cons hr hrest ih =>
      rename_i r1 r2 t1 t2
      rw [List.map_cons, List.map_cons]
      have hnd1 : (sanKeys r1).Nodup := hnd r1 (List.mem_cons_self _ _)
      have hnd2map : ((r1.map (fun e => (sanitize_k8s_name_cu e.1,
          rewriteLoopVal e.2))).map Prod.fst).Nodup := by
        rw [List.map_map]
        exact hnd1
      have hb1 : buildRecord r1
          = r1.map (fun e => (sanitize_k8s_name_cu e.1, rewriteLoopVal e.2))
          := buildRecord_map hnd1
      have hmapperm : (r1.map (fun e => sanitize_k8s_name_cu e.1)).Perm
          (r2.map (fun e => sanitize_k8s_name_cu e.1)) :=
        List.Perm.map (fun (e : String × LoopVal) =>
          sanitize_k8s_name_cu e.1) hr
      have hndr2 : (sanKeys r2).Nodup := by
        rw [sanKeys]
        exact hmapperm.nodup_iff.mp (by rw [sanKeys] at hnd1; exact hnd1)
      have hb2 : buildRecord r2
          = r2.map (fun e => (sanitize_k8s_name_cu e.1, rewriteLoopVal e.2))
          := buildRecord_map hndr2
      have hrecperm : (buildRecord r1).Perm (buildRecord r2) := by
        rw [hb1, hb2]
        exact hr.map _
      have : dumpRecord (buildRecord r1) = dumpRecord (buildRecord r2) := by
        rw [dumpRecord, dumpRecord,
          sortByKey_perm_eq hrecperm (by rw [hb1, List.map_map]; exact hnd1)]
      rw [this, ih (fun r hrm => hnd r (List.mem_cons_of_mem _ hrm))]
  · rw [serializeLoopItems]
    have hmapeq : items.map (fun r => dumpRecord (buildRecord r))
        = items.map (fun r => dumpRecord (r.map (fun e =>
          (sanitize_k8s_name_cu e.1, rewriteLoopVal e.2)))) := by
      apply List.map_congr_left
      intro r hr
      rw [buildRecord_map (hnd r hr)]
    rw [hmapeq]

theorem claim_C8_witness :
    List.Forall₂ (fun r1 r2 => r1.Perm r2)
      [[("K y", LoopVal.pp none "p1"), ("b", LoopVal.iv 3)]]
      [[("b", LoopVal.iv 3), ("K y", LoopVal.pp none "p1")]]
    ∧ (∀ r ∈ [[("K y", LoopVal.pp none "p1"), ("b", LoopVal.iv 3)]],
        (sanKeys r).Nodup)
    ∧ serializeLoopItems [[("K y", LoopVal.pp none "p1"),
        ("b", LoopVal.iv 3)]]
      = serializeLoopItems [[("b", LoopVal.iv 3),
        ("K y", LoopVal.pp none "p1")]] := by
  have h1 : List.Forall₂ (fun r1 r2 => r1.Perm r2)
      [[("K y", LoopVal.pp none "p1"), ("b", LoopVal.iv 3)]]
      [[("b", LoopVal.iv 3), ("K y", LoopVal.pp none "p1")]] := by
    refine List.Forall₂.cons ?_ List.Forall₂.nil
    exact List.Perm.swap _ _ _
  have h2 : ∀ r ∈ [[("K y", LoopVal.pp none "p1"), ("b", LoopVal.iv 3)]],
      (sanKeys r).Nodup := by
    intro r hr
    rcases List.mem_singleton.mp hr with rfl
    decide
  exact ⟨h1, h2, (claim_C8_loop_serialization h1 h2).1⟩

/-! ## Dependency derivation (`_get_dependencies`)

Source, `compiler.py` lines 687-755.  The first pass walks every op,
collects upstream producer names from its inputs, its condition
parameters and its explicit ordering hints (`dependent_names`), resolves
each name against the op namespace and then the group namespace, skips
unresolvable names containing `for-loop`, raises for any other
unresolvable name, computes the uncommon-ancestor tails, pops leading
`condition-` groups off the upstream tail and records
`downstreamTail[0] depends on upstreamTail[0]`.  The second pass repeats
this for the groups of the IR tree in pre-order (`_get_dependency_opsgroup`),
using the group's declared dependency list (plus inputs and condition
parameters for recursive groups) and without the `for-loop` exemption.

The ancestor paths (`op_groups`, `opsgroup_groups`) are produced by the
inherited base-compiler helpers, which live in the upstream `kfp`
package; they enter the model as data of the pipeline.  The
uncommon-ancestor computation is modelled from the spec (section 4.1). -/

/-- An op input or condition parameter: only its producer name matters
here; the empty string models a falsy producer (`None` or `""`). -/
structure DParam where
  op_name : String
deriving DecidableEq

structure DOp where
  name : String
  inputs : List DParam
  dependent_names : List String
deriving DecidableEq

/-- Per-group data consumed by `_get_dependency_opsgroup`. -/
structure DGroupInfo where
  name : String
  depNames : List String
  recursive_ref : Bool
  inputs : List DParam
deriving DecidableEq

/-- The pipeline-level data `_get_dependencies` consumes.  The group
tree enters as its pre-order walk (`groupsPreorder`), which is the exact
visit order of the recursive `_get_dependency_opsgroup`. -/
structure DPipeline where
  ops : List DOp
  opsgroupNames : List String
  condParams : List (String × List DParam)
  opGroups : List (String × List String)
  opsgroupGroups : List (String × List String)
  groupsPreorder : List DGroupInfo
deriving DecidableEq

def lookupAssoc {α : Type} (l : List (String × α)) (k : String) :
    Option α :=
  match l with
  | [] => none
  | e :: rest => if e.1 = k then some e.2 else lookupAssoc rest k

/-- `condition_params[name]` (a `defaultdict(set)`: missing means none). -/
def condParamsOf (p : DPipeline) (n : String) : List DParam :=
  (lookupAssoc p.condParams n).getD []

/-- Path resolution inside `_get_uncommon_ancestors`: `op_groups` first,
then `opsgroups_groups`; `none` corresponds to its `ValueError`. -/
def pathOf (p : DPipeline) (n : String) : Option (List String) :=
  match lookupAssoc p.opGroups n with
  | some l => some l
  | none => lookupAssoc p.opsgroupGroups n

/-- Modelled from the spec (section 4.1): the Ancestor Resolver's
uncommon-ancestor computation, implemented in the inherited base
compiler class of the upstream kfp package (not under `src/`): drop the
longest common prefix of the two root-to-entity paths and return the two
remaining tails. -/
def dropCommon : List String → List String → List String × List String
  | [], bs => ([], bs)
  | a :: as2, [] => (a :: as2, [])
  | a :: as2, b :: bs => if a = b then dropCommon as2 bs else (a :: as2, b :: bs)

/-- Python truthiness of `param.op_name`. -/
def truthyOp (pa : DParam) : Option String :=
  if pa.op_name = "" then none else some pa.op_name

/-- The upstream producer names of one op (inputs, condition parameters,
explicit ordering hints), lines 699-703. -/
def upstreamNames (p : DPipeline) (o : DOp) : List String :=
  (o.inputs ++ condParamsOf p o.name).filterMap truthyOp
    ++ o.dependent_names

/-- The upstream names of one group (lines 727-733). -/
def groupUpstreamNames (p : DPipeline) (g : DGroupInfo) : List String :=
  g.depNames ++ (if g.recursive_ref then
    (g.inputs ++ condParamsOf p g.name).filterMap truthyOp else [])

/-- Python substring containment on strings. -/
def strContains (pat s : String) : Bool := containsSub pat.data s.data

/-- `dependencies[a].add(b)` with set semantics. -/
def addEdge (deps : List (String × String)) (e : String × String) :
    List (String × String) :=
  if e ∈ deps then deps else deps ++ [e]

/-- Name resolution of lines 707-710 / 736-739: ops first, then groups. -/
def resolvable (p : DPipeline) (u : String) : Bool :=
  p.ops.any (fun o2 => o2.name = u)
    || p.opsgroupNames.any (fun g => g = u)

/-- Processing of one upstream name (lines 705-723 / 735-748): resolve,
compute the uncommon-ancestor tails, pop leading `condition-` entries
off the upstream tail and record the edge; `exemptForLoop` enables the
`elif "for-loop" in upstream_op_name: continue` branch of the op pass. -/
def processUpstream (p : DPipeline) (exemptForLoop : Bool)
    (downName : String) (deps : List (String × String)) (u : String) :
    Except String (List (String × String)) :=
  if resolvable p u then
    match pathOf p u with
    | none => .error ("There is no op with name " ++ u)
    | some pu =>
      match pathOf p downName with
      | none => .error ("There is no op with name " ++ downName)
      | some pd =>
        match (dropCommon pu pd).1.dropWhile
            (fun g => strContains "condition-" g) with
        | [] => .ok deps
        | u0 :: _ =>
          match (dropCommon pu pd).2 with
          | [] => .error "IndexError: empty downstream tail"
          | d0 :: _ => .ok (addEdge deps (d0, u0))
  else if exemptForLoop && strContains "for-loop" u then .ok deps
  else .error ("compiler cannot find the " ++ u)

/-- The per-op pass of `_get_dependencies` (lines 698-723). -/
def opPass (p : DPipeline) (deps0 : List (String × String)) :
    Except String (List (String × String)) :=
  p.ops.foldlM (fun deps o =>
    (upstreamNames p o).foldlM
      (fun d u => processUpstream p true o.name d u) deps) deps0

/-- The recursive-group pass (lines 727-753), in pre-order. -/
def groupPass (p : DPipeline) (deps0 : List (String × String)) :
    Except String (List (String × String)) :=
  p.groupsPreorder.foldlM (fun deps g =>
    (groupUpstreamNames p g).foldlM
      (fun d u => processUpstream p false g.name d u) deps) deps0

/-- `_get_dependencies` (lines 687-755). -/
def get_dependencies (p : DPipeline) :
    Except String (List (String × String)) := do
  let d1 ← opPass p []
  groupPass p d1

theorem exceptBind_ok {α β : Type} {m : Except String α}
    {f : α → Except String β} {b : β}
    (h : (m >>= f) = .ok b) : ∃ a, m = .ok a ∧ f a = .ok b := by
  cases m with
  | error e => simp [Bind.bind, Except.bind] at h
  | ok a => exact ⟨a, rfl, by simpa [Bind.bind, Except.bind] using h⟩

theorem mem_addEdge {deps : List (String × String)}
    {e e2 : String × String} (h : e ∈ deps) : e ∈ addEdge deps e2 := by
  rw [addEdge]
  split
  · exact h
  · exact List.mem_append_left _ h

theorem mem_addEdge_self {deps : List (String × String)}
    {e : String × String} : e ∈ addEdge deps e := by
  rw [addEdge]
  split
  case isTrue h => exact h
  case isFalse h => simp

theorem processUpstream_mono {p : DPipeline} {fl : Bool} {dn : String}
    {d d2 : List (String × String)} {u : String}
    (h : processUpstream p fl dn d u = .ok d2) :
    ∀ e ∈ d, e ∈ d2 := by
  intro e he
  rw [processUpstream] at h
  split at h
  · split at h
    · cases h
    · split at h
      · cases h
      · split at h
        · injection h with h1; rw [← h1]; exact he
        · split at h
          · cases h
          · injection h with h1
            rw [← h1]
            exact mem_addEdge he
  · split at h
    · injection h with h1; rw [← h1]; exact he
    · cases h

theorem foldlM_mem_preserved {α : Type}
    {step : List (String × String) → α
      → Except String (List (String × String))}
    (hmono : ∀ d x d2, step d x = .ok d2 → ∀ e ∈ d, e ∈ d2) :
    ∀ {l : List α} {d dend : List (String × String)},
    l.foldlM step d = .ok dend → ∀ e ∈ d, e ∈ dend := by
  intro l
  induction l with
  | nil =>
    intro d dend h e he
    rw [List.foldlM_nil] at h
    injection h with h1
    rw [← h1]; exact he
  | cons x xs ih =>
    intro d dend h e he
    rw [List.foldlM_cons] at h
    rcases exceptBind_ok h with ⟨d1, hd1, hrest⟩
    exact ih hrest e (hmono d x d1 hd1 e he)

theorem foldlM_step_reached {α : Type}
    {step : List (String × String) → α
      → Except String (List (String × String))}
    (hmono : ∀ d x d2, step d x = .ok d2 → ∀ e ∈ d, e ∈ d2) :
    ∀ {l : List α} {d dend : List (String × String)},
    l.foldlM step d = .ok dend → ∀ x ∈ l,
    ∃ dx d2, step dx x = .ok d2 ∧ ∀ e ∈ d2, e ∈ dend := by
  intro l
  induction l with
  | nil => intro d dend _ x hx; simp at hx
  | cons y ys ih =>
    intro d dend h x hx
    rw [List.foldlM_cons] at h
    rcases exceptBind_ok h with ⟨d1, hd1, hrest⟩
    rcases List.mem_cons.mp hx with rfl | hxs
    · exact ⟨d, d1, hd1, fun e he => foldlM_mem_preserved hmono hrest e he⟩
    · exact ih hrest x hxs

theorem foldlM_ok_each {α β : Type} {step : β → α → Except String β} :
    ∀ {l : List α} {b bend : β}, l.foldlM step b = .ok bend →
    ∀ x ∈ l, ∃ bx b2, step bx x = .ok b2 := by
  intro l
  induction l with
  | nil => intro b bend _ x hx; simp at hx
  | cons y ys ih =>
    intro b bend h x hx
    rw [List.foldlM_cons] at h
    rcases exceptBind_ok h with ⟨b1, hb1, hrest⟩
    rcases List.mem_cons.mp hx with rfl | hxs
    · exact ⟨b, b1, hb1⟩
    · exact ih hrest x hxs

/-- C1: for every op and every upstream producer name referenced by its
inputs, its attached condition parameters or its explicit ordering
hints, when the name resolves to a task or group, the dependency deriver
computes the uncommon-ancestor tails, skips leading condition groups of
the upstream tail, and records the edge from the head of the downstream
tail to the first non-condition element of the upstream tail. -/
theorem claim_C1_dependency_edge {p : DPipeline}
    {deps : List (String × String)} {o : DOp} {u : String}
    {pu pd : List String} {u0 d0 : String} {utail dtail : List String}
    (hok : get_dependencies p = .ok deps)
    (ho : o ∈ p.ops)
    (hu : u ∈ upstreamNames p o)
    (hres : resolvable p u = true)
    (hpu : pathOf p u = some pu)
    (hpd : pathOf p o.name = some pd)
    (hcond : (dropCommon pu pd).1.dropWhile
        (fun g => strContains "condition-" g) = u0 :: utail)
    (hdown : (dropCommon pu pd).2 = d0 :: dtail) :
    (d0, u0) ∈ deps := by
  rw [get_dependencies] at hok
  rcases exceptBind_ok hok with ⟨d1, hop, hgr⟩
  have hinnermono : ∀ (dn : String) d (u2 : String) d2,
      processUpstream p true dn d u2 = .ok d2 → ∀ e ∈ d, e ∈ d2 :=
    fun dn d u2 d2 h => processUpstream_mono h
  have houtermono : ∀ d (o2 : DOp) d2,
      (upstreamNames p o2).foldlM
        (fun d u => processUpstream p true o2.name d u) d = .ok d2 →
      ∀ e ∈ d, e ∈ d2 :=
    fun d o2 d2 h => foldlM_mem_preserved
      (fun d3 x d4 h4 => processUpstream_mono h4) h
  rw [opPass] at hop
  rcases foldlM_step_reached houtermono hop o ho with ⟨dx, d2, hstep, hsub⟩
  rcases foldlM_step_reached
    (fun d3 x d4 h4 => processUpstream_mono h4) hstep u hu
    with ⟨du, d3, hustep, husub⟩
  have hedge : (d0, u0) ∈ d3 := by
    simp only [processUpstream, hres, if_true, hpu, hpd, hcond, hdown]
      at hustep
    injection hustep with h1
    rw [← h1]
    exact mem_addEdge_self
  have hin1 : (d0, u0) ∈ d1 := hsub _ (husub _ hedge)
  rw [groupPass] at hgr
  exact foldlM_mem_preserved
    (fun d3 g d4 h4 => foldlM_mem_preserved
      (fun d5 x d6 h6 => processUpstream_mono h6) h4) hgr _ hin1

/-- Concrete pipeline exercising the condition-skip rule: `task2` reads
an output of `task1`, which lives inside the condition group
`condition-1`. -/
def pipeC1 : DPipeline :=
  ⟨[⟨"task1", [], []⟩, ⟨"task2", [⟨"task1"⟩], []⟩],
   ["condition-1"], [],
   [("task1", ["root", "condition-1", "task1"]),
    ("task2", ["root", "task2"])],
   [("condition-1", ["root", "condition-1"])],
   [⟨"root", [], false, []⟩]⟩

theorem claim_C1_witness :
    get_dependencies pipeC1 = .ok [("task2", "task1")]
    ∧ (⟨"task2", [⟨"task1"⟩], []⟩ : DOp) ∈ pipeC1.ops
    ∧ "task1" ∈ upstreamNames pipeC1 ⟨"task2", [⟨"task1"⟩], []⟩
    ∧ ("task2", "task1") ∈ [(("task2" : String), ("task1" : String))] := by
  refine ⟨rfl, by decide, by decide, ?_⟩
  exact @claim_C1_dependency_edge pipeC1 [("task2", "task1")]
    ⟨"task2", [⟨"task1"⟩], []⟩ "task1"
    ["root", "condition-1", "task1"] ["root", "task2"]
    "task1" "task2" [] []
    rfl (by decide) (by decide) rfl rfl rfl rfl rfl

/-- Concrete pipeline whose only op lists an unresolvable ordering hint
containing `for-loop`. -/
def pipeC7 : DPipeline :=
  ⟨[⟨"task1", [], ["for-loop-unknown"]⟩], [], [],
   [("task1", ["root", "task1"])], [], [⟨"root", [], false, []⟩]⟩

/-- C7: the claim as frozen is false on the code.  An upstream name that
resolves in neither the task namespace nor the group namespace but
contains the substring `for-loop` is silently skipped by the
`elif "for-loop" in upstream_op_name: continue` branch (line 711):
dependency derivation succeeds and produces a dependency map. -/
theorem claim_C7_counterexample :
    resolvable pipeC7 "for-loop-unknown" = false
    ∧ "for-loop-unknown" ∈ upstreamNames pipeC7
        ⟨"task1", [], ["for-loop-unknown"]⟩
    ∧ get_dependencies pipeC7 = .ok [] :=
  ⟨rfl, by decide, rfl⟩

/-- C7 (amended): for every referenced upstream entity name that is
found in neither the pipeline's task namespace nor its group namespace,
dependency derivation raises a fatal error - unless, in the per-task
pass, the name contains the substring `for-loop`, in which case the name
is silently skipped.  No dependency map is produced in the error case. -/
theorem claim_C7_unresolvable_raises {p : DPipeline} {o : DOp}
    {u : String}
    (ho : o ∈ p.ops)
    (hu : u ∈ upstreamNames p o)
    (hres : resolvable p u = false)
    (hfl : strContains "for-loop" u = false) :
    ∀ deps, get_dependencies p ≠ .ok deps := by
  intro deps hok
  rw [get_dependencies] at hok
  rcases exceptBind_ok hok with ⟨d1, hop, _⟩
  rw [opPass] at hop
  rcases foldlM_ok_each hop o ho with ⟨dx, d2, hstep⟩
  rcases foldlM_ok_each hstep u hu with ⟨du, d3, hustep⟩
  rw [processUpstream, if_neg (by rw [hres]; simp),
    if_neg (by rw [hfl]; simp)] at hustep
  cases hustep

/-- Concrete pipeline with an unresolvable ordering hint that does not
mention `for-loop`. -/
def pipeC7b : DPipeline :=
  ⟨[⟨"task1", [], ["ghost-op"]⟩], [], [],
   [("task1", ["root", "task1"])], [], [⟨"root", [], false, []⟩]⟩

theorem claim_C7_witness :
    (⟨"task1", [], ["ghost-op"]⟩ : DOp) ∈ pipeC7b.ops
    ∧ "ghost-op" ∈ upstreamNames pipeC7b ⟨"task1", [], ["ghost-op"]⟩
    ∧ resolvable pipeC7b "ghost-op" = false
    ∧ ∀ deps, get_dependencies pipeC7b ≠ .ok deps := by
  refine ⟨by decide, by decide, rfl, ?_⟩
  exact claim_C7_unresolvable_raises (p := pipeC7b)
    (o := ⟨"task1", [], ["ghost-op"]⟩) (u := "ghost-op")
    (by decide) (by decide) rfl rfl

/-! ## The custom-task inliner (`_inline_tasks`, `prepare_workflow`)

Source, `compiler.py` lines 1959-1992 and 1811-1870.  `_inline_tasks`
walks the task list; a task whose `taskRef` carries a `name` that is not
a recursive construct is resolved against the auxiliary documents
(`crs`) and, when found, the reference is replaced by an inline
`taskSpec` copy of the construct's body and the name recorded as
inlined.  Every task that (now) carries a `taskSpec` receives the
`pipelines.kubeflow.org/cache_enabled` label, defaulting from the
pipeline-level labels and ultimately to `"true"`.  `prepare_workflow`
then drops every inlined construct from the standalone document list
(line 1869). -/

/-- A JSON-like document tree (opaque construct bodies, final-document
fields). -/
inductive JVal where
  | s (v : String)
  | n (v : Int)
  | b (v : Bool)
  | arr (items : List JVal)
  | obj (fields : List (String × JVal))

structure TaskRefR where
  apiVersion : String
  kind : String
  nameQ : Option String

structure MetaR where
  labels : List (String × String)
  annots : List (String × String)

structure TaskSpecR where
  apiVersion : String
  kind : String
  spec : JVal
  metaQ : Option MetaR

structure TaskR where
  name : String
  paramsQ : Option (List (String × String))
  taskRefQ : Option TaskRefR
  taskSpecQ : Option TaskSpecR

/-- An auxiliary standalone document (`custom_opsgroup_cr`): its
`metadata.name` and its `spec` payload. -/
structure CRR where
  nameQ : Option String
  spec : JVal

/-- `sorted(params, key=lambda kv: kv['name'])` (line 1971, stable). -/
def sortParams (ps : List (String × String)) : List (String × String) :=
  ps.mergeSort (fun a b => decide (a.1 ≤ b.1))

/-- Lines 1969-1971: sort the task's params when present. -/
def sortFix (t : TaskR) : TaskR :=
  match t.paramsQ with
  | none => t
  | some ps => { t with paramsQ := some (sortParams ps) }

def cacheKey : String := "pipelines.kubeflow.org/cache_enabled"

/-- Lines 1988-1990: the label map with the cache key ensured; the
default comes from the pipeline-level labels and falls back to
`"true"`. -/
def cacheLabels (pl : List (String × String)) (meta : MetaR) :
    List (String × String) :=
  if (lookupAssoc meta.labels cacheKey).isSome then meta.labels
  else meta.labels ++ [(cacheKey, (lookupAssoc pl cacheKey).getD "true")]

/-- Lines 1986-1991: ensure the cache label on every task that carries a
`taskSpec`. -/
def applyCacheLabel (pl : List (String × String)) (t : TaskR) : TaskR :=
  match t.taskSpecQ with
  | none => t
  | some ts =>
    { t with
      taskSpecQ := (some { ts with
        metaQ := (some ⟨cacheLabels pl (ts.metaQ.getD ⟨[], []⟩),
          (ts.metaQ.getD ⟨[], []⟩).annots⟩) }) }

/-- The scan over the auxiliary documents (lines 1979-1985).  Python's
`pop('taskRef')` raises `KeyError` when a second document carries the
same name (the reference was already popped); we model that as an
error. -/
def inlineScan (crs : List CRR) (refName apiV kindStr : String)
    (st : TaskR × List String) : Except String (TaskR × List String) :=
  crs.foldlM (fun st cr =>
    if cr.nameQ.getD "" = refName then
      match st.1.taskRefQ with
      | some _ => pure
          ({ st.1 with
             taskSpecQ := some ⟨apiV, kindStr, cr.spec, none⟩,
             taskRefQ := none }, st.2 ++ [refName])
      | none => .error "KeyError: taskRef"
    else pure st) st

/-- Processing of one task (lines 1968-1991): sort params, resolve a
named non-recursive `taskRef` against the documents, then apply the
cache label. -/
def inlineTask (crs : List CRR) (recNames : List String)
    (pl : List (String × String)) (st : List TaskR × List String)
    (t : TaskR) : Except String (List TaskR × List String) := do
  let r2 ←
    match (sortFix t).taskRefQ with
    | some r =>
      match r.nameQ with
      | some n =>
        if n ∉ recNames then
          inlineScan crs n r.apiVersion r.kind (sortFix t, st.2)
        else pure (sortFix t, st.2)
      | none => pure (sortFix t, st.2)
    | none => pure (sortFix t, st.2)
  pure (st.1 ++ [applyCacheLabel pl r2.1], r2.2)

/-- `_inline_tasks` (lines 1959-1992): the rewritten task list and the
names inlined as task specs. -/
def inline_tasks (tasks : List TaskR) (crs : List CRR)
    (recNames : List String) (pl : List (String × String)) :
    Except String (List TaskR × List String) :=
  tasks.foldlM (inlineTask crs recNames pl) ([], [])

/-- Line 1869: the standalone documents remaining after inlining. -/
def filterStandalone (crs : List CRR) (inl : List String) : List CRR :=
  crs.filter (fun cr => !(inl.contains (cr.nameQ.getD "")))

/-- Declarative per-task description of the reference resolution, to be
proved equal to the imperative scan. -/
def inlineSpecTask (crs : List CRR) (recNames : List String)
    (t1 : TaskR) : TaskR × List String :=
  match t1.taskRefQ with
  | some r =>
    match r.nameQ with
    | some n =>
      if n ∈ recNames then (t1, [])
      else
        match crs.find? (fun cr => cr.nameQ.getD "" == n) with
        | some cr =>
          ({ t1 with
             taskSpecQ := some ⟨r.apiVersion, r.kind, cr.spec, none⟩,
             taskRefQ := none }, [n])
        | none => (t1, [])
    | none => (t1, [])
  | none => (t1, [])

/-- Concatenation of a list of lists (structural, so that witnesses can
evaluate it). -/
def catLists {α : Type} (ls : List (List α)) : List α :=
  ls.foldr (fun a b => a ++ b) []

theorem exceptPureBind {α β : Type} (a : α)
    (f : α → Except String β) :
    ((pure a : Except String α) >>= f) = f a := rfl

theorem exceptOkBind {α β : Type} (a : α)
    (f : α → Except String β) :
    ((Except.ok a : Except String α) >>= f) = f a := rfl

theorem inlineScan_no_match {crs : List CRR} {n apiV kindStr : String}
    {st : TaskR × List String}
    (h : ∀ cr ∈ crs, cr.nameQ.getD "" ≠ n) :
    inlineScan crs n apiV kindStr st = .ok st := by
  induction crs with
  | nil => rfl
  | cons cr rest ih =>
    rw [inlineScan, List.foldlM_cons]
    simp only [if_neg (h cr (List.mem_cons_self cr rest)), exceptPureBind]
    exact ih (fun cr2 hm => h cr2 (List.mem_cons_of_mem cr hm))

theorem inlineScan_spec {crs : List CRR} {n apiV kindStr : String}
    {t1 : TaskR} {inl : List String} {r : TaskRefR}
    (hnd : (crs.map (fun cr => cr.nameQ.getD "")).Nodup)
    (href : t1.taskRefQ = some r) :
    inlineScan crs n apiV kindStr (t1, inl)
      = .ok (match crs.find? (fun cr => cr.nameQ.getD "" == n) with
        | some cr =>
          ({ t1 with
             taskSpecQ := some ⟨apiV, kindStr, cr.spec, none⟩,
             taskRefQ := none }, inl ++ [n])
        | none => (t1, inl)) := by
  induction crs with
  | nil => rfl
  | cons cr rest ih =>
    rw [List.map_cons, List.nodup_cons] at hnd
    by_cases hm : cr.nameQ.getD "" = n
    · rw [inlineScan, List.foldlM_cons]
      simp only [if_pos hm, href, exceptPureBind]
      have hrest : ∀ cr2 ∈ rest, cr2.nameQ.getD "" ≠ n := fun cr2 hm2 hc =>
        hnd.1 (by rw [hm, ← hc]; exact List.mem_map_of_mem _ hm2)
      have hscan := @inlineScan_no_match rest n apiV kindStr
        ({ t1 with
          taskSpecQ := some ⟨apiV, kindStr, cr.spec, none⟩,
          taskRefQ := none }, inl ++ [n]) hrest
      rw [inlineScan] at hscan
      rw [hscan, List.find?_cons_of_pos _ (by simpa using hm)]
    · rw [inlineScan, List.foldlM_cons]
      simp only [if_neg hm, exceptPureBind]
      have hrec := ih hnd.2
      rw [inlineScan] at hrec
      rw [hrec, List.find?_cons_of_neg _ (by simpa using hm)]

theorem inlineTask_eq {crs : List CRR} {recNames : List String}
    {pl : List (String × String)} {acc : List TaskR} {inl : List String}
    {t : TaskR}
    (hnd : (crs.map (fun cr => cr.nameQ.getD "")).Nodup) :
    inlineTask crs recNames pl (acc, inl) t
      = .ok (acc ++ [applyCacheLabel pl
            (inlineSpecTask crs recNames (sortFix t)).1],
          inl ++ (inlineSpecTask crs recNames (sortFix t)).2) := by
  rw [inlineTask]
  cases href : (sortFix t).taskRefQ with
  | none =>
    simp only [inlineSpecTask, href, List.append_nil]
    rfl
  | some r =>
    cases hname : r.nameQ with
    | none =>
      simp only [inlineSpecTask, href, hname, List.append_nil]
      rfl
    | some nm =>
      by_cases hrec : nm ∈ recNames
      · simp only [inlineSpecTask, href, hname, if_pos hrec,
          if_neg (not_not_intro hrec), List.append_nil]
        rfl
      · simp only [inlineSpecTask, href, hname, if_pos hrec, if_neg hrec,
          inlineScan_spec hnd href, exceptOkBind]
        cases hfind : crs.find? (fun cr => cr.nameQ.getD "" == nm) with
        | none => simp only [List.append_nil]; rfl
        | some cr => rfl

theorem inline_tasks_go {crs : List CRR} {recNames : List String}
    {pl : List (String × String)}
    (hnd : (crs.map (fun cr => cr.nameQ.getD "")).Nodup) :
    ∀ (tasks : List TaskR) (acc : List TaskR) (inl : List String),
    List.foldlM (inlineTask crs recNames pl) (acc, inl) tasks
      = .ok (acc ++ tasks.map (fun t => applyCacheLabel pl
            (inlineSpecTask crs recNames (sortFix t)).1),
          inl ++ catLists (tasks.map
            (fun t => (inlineSpecTask crs recNames (sortFix t)).2))) := by
  intro tasks
  induction tasks with
  | nil =>
    intro acc inl
    simp only [List.map_nil, catLists, List.foldr_nil, List.append_nil]
    rfl
  | cons t rest ih =>
    intro acc inl
    rw [List.foldlM_cons, inlineTask_eq hnd]
    simp only [exceptOkBind]
    rw [ih]
    simp only [List.map_cons, catLists, List.foldr_cons,
      List.append_assoc, List.singleton_append]

/-- One-shot characterization of `_inline_tasks` as a per-task map
(assuming duplicate-free auxiliary document names). -/
theorem inline_tasks_spec {tasks : List TaskR} {crs : List CRR}
    {recNames : List String} {pl : List (String × String)}
    (hnd : (crs.map (fun cr => cr.nameQ.getD "")).Nodup) :
    inline_tasks tasks crs recNames pl
      = .ok (tasks.map (fun t => applyCacheLabel pl
            (inlineSpecTask crs recNames (sortFix t)).1),
          catLists (tasks.map
            (fun t => (inlineSpecTask crs recNames (sortFix t)).2))) := by
  rw [inline_tasks, inline_tasks_go hnd tasks [] []]
  simp only [List.nil_append]

theorem lookupAssoc_append_right {α : Type} {l1 l2 : List (String × α)}
    {k : String} (h : lookupAssoc l1 k = none) :
    lookupAssoc (l1 ++ l2) k = lookupAssoc l2 k := by
  induction l1 with
  | nil => rfl
  | cons e rest ih =>
    rw [lookupAssoc] at h
    by_cases he : e.1 = k
    · rw [if_pos he] at h; cases h
    · rw [if_neg he] at h
      rw [List.cons_append, lookupAssoc, if_neg he]
      exact ih h

theorem cacheLabels_present (pl : List (String × String)) (meta : MetaR) :
    (lookupAssoc (cacheLabels pl meta) cacheKey).isSome = true := by
  rw [cacheLabels]
  cases hlk : lookupAssoc meta.labels cacheKey with
  | some v =>
    rw [if_pos (show ((some v).isSome = true) from rfl)]
    rw [hlk]
    rfl
  | none =>
    rw [if_neg (by simp)]
    rw [lookupAssoc_append_right hlk]
    simp [lookupAssoc]

theorem cacheLabels_default {pl : List (String × String)} {meta : MetaR}
    (hpl : lookupAssoc pl cacheKey = none)
    (hown : lookupAssoc meta.labels cacheKey = none) :
    lookupAssoc (cacheLabels pl meta) cacheKey = some "true" := by
  rw [cacheLabels, if_neg (by rw [hown]; simp)]
  rw [lookupAssoc_append_right hown, hpl]
  simp [lookupAssoc]

theorem applyCacheLabel_present {pl : List (String × String)} {t : TaskR}
    {ts : TaskSpecR} (h : (applyCacheLabel pl t).taskSpecQ = some ts) :
    (lookupAssoc (ts.metaQ.getD ⟨[], []⟩).labels cacheKey).isSome
      = true := by
  cases hts : t.taskSpecQ with
  | none =>
    simp only [applyCacheLabel, hts] at h
    cases h
  | some ts0 =>
    simp only [applyCacheLabel, hts, Option.some.injEq] at h
    subst h
    exact cacheLabels_present pl (ts0.metaQ.getD ⟨[], []⟩)

theorem applyCacheLabel_default {pl : List (String × String)} {t : TaskR}
    {ts ts0 : TaskSpecR}
    (hpl : lookupAssoc pl cacheKey = none)
    (h : (applyCacheLabel pl t).taskSpecQ = some ts)
    (hts : t.taskSpecQ = some ts0)
    (hown : lookupAssoc (ts0.metaQ.getD ⟨[], []⟩).labels cacheKey
      = none) :
    lookupAssoc (ts.metaQ.getD ⟨[], []⟩).labels cacheKey
      = some "true" := by
  simp only [applyCacheLabel, hts, Option.some.injEq] at h
  subst h
  exact cacheLabels_default hpl hown

/-- C9: a task carrying a by-name `taskRef` is inlined exactly when the
named construct exists among the auxiliary documents and the name is not
recursive; inlining copies the construct's body into `taskSpec`, drops
the reference and records the name; recursive or unresolved references
are left unchanged; and a construct survives as a standalone document
exactly when its name was not recorded as inlined.  The first conjunct
characterizes the whole of `_inline_tasks` this way (for duplicate-free
document names; a duplicate triggers the `KeyError` of the double
`pop`). -/
theorem claim_C9_inliner {tasks : List TaskR} {crs : List CRR}
    {recNames : List String} {pl : List (String × String)}
    (hnd : (crs.map (fun cr => cr.nameQ.getD "")).Nodup) :
    inline_tasks tasks crs recNames pl
      = .ok (tasks.map (fun t => applyCacheLabel pl
            (inlineSpecTask crs recNames (sortFix t)).1),
          catLists (tasks.map
            (fun t => (inlineSpecTask crs recNames (sortFix t)).2)))
    ∧ (∀ (t1 : TaskR) (r : TaskRefR) (nm : String) (cr2 : CRR),
        t1.taskRefQ = some r → r.nameQ = some nm → nm ∉ recNames →
        crs.find? (fun cr => cr.nameQ.getD "" == nm) = some cr2 →
        inlineSpecTask crs recNames t1
          = ({ t1 with
               taskSpecQ := some ⟨r.apiVersion, r.kind, cr2.spec, none⟩,
               taskRefQ := none }, [nm]))
    ∧ (∀ (t1 : TaskR) (r : TaskRefR) (nm : String),
        t1.taskRefQ = some r → r.nameQ = some nm →
        (nm ∈ recNames
          ∨ crs.find? (fun cr => cr.nameQ.getD "" == nm) = none) →
        inlineSpecTask crs recNames t1 = (t1, []))
    ∧ (∀ cr ∈ crs, ∀ inl : List String,
        cr ∈ filterStandalone crs inl ↔ cr.nameQ.getD "" ∉ inl) := by
  refine ⟨inline_tasks_spec hnd, ?_, ?_, ?_⟩
  · intro t1 r nm cr2 href hname hrec hfind
    simp only [inlineSpecTask, href, hname, if_neg hrec, hfind]
  · intro t1 r nm href hname hcase
    rcases hcase with hrec | hfind
    · simp only [inlineSpecTask, href, hname, if_pos hrec]
    · by_cases hrec : nm ∈ recNames
      · simp only [inlineSpecTask, href, hname, if_pos hrec]
      · simp only [inlineSpecTask, href, hname, if_neg hrec, hfind]
  · intro cr hcr inl
    rw [filterStandalone, List.mem_filter]
    simp [hcr]

def crW : CRR := ⟨some "loop-1", JVal.s "loop-body"⟩

def crW2 : CRR := ⟨some "rec-1", JVal.s "rec-body"⟩

def tW1 : TaskR :=
  ⟨"t1", none, some ⟨"custom.tekton.dev/v1", "PipelineLoop",
    some "loop-1"⟩, none⟩

def tW2 : TaskR :=
  ⟨"t2", none, some ⟨"custom.tekton.dev/v1", "PipelineLoop",
    some "rec-1"⟩, none⟩

theorem claim_C9_witness :
    inline_tasks [tW1, tW2] [crW, crW2] ["rec-1"] []
      = .ok ([⟨"t1", none, none, some ⟨"custom.tekton.dev/v1",
                "PipelineLoop", JVal.s "loop-body",
                some ⟨[(cacheKey, "true")], []⟩⟩⟩,
              tW2],
             ["loop-1"])
    ∧ filterStandalone [crW, crW2] ["loop-1"] = [crW2] := by
  have h := @claim_C9_inliner [tW1, tW2] [crW, crW2]
    ["rec-1"] [] (by decide)
  exact ⟨h.1.trans (by rfl), rfl⟩

/-- C10: every task of the inliner's output that carries an inline task
specification has the `pipelines.kubeflow.org/cache_enabled` metadata
label; and whenever neither the pipeline-level labels nor the task's own
labels give the key a value, the label's value is `"true"`. -/
theorem claim_C10_cache_label {tasks : List TaskR} {crs : List CRR}
    {recNames : List String} {pl : List (String × String)}
    {res : List TaskR × List String}
    (hnd : (crs.map (fun cr => cr.nameQ.getD "")).Nodup)
    (hok : inline_tasks tasks crs recNames pl = .ok res) :
    (∀ t ∈ res.1, ∀ ts, t.taskSpecQ = some ts →
      (lookupAssoc (ts.metaQ.getD ⟨[], []⟩).labels cacheKey).isSome
        = true)
    ∧ (∀ (t1 : TaskR) (ts ts0 : TaskSpecR),
        lookupAssoc pl cacheKey = none →
        (applyCacheLabel pl t1).taskSpecQ = some ts →
        t1.taskSpecQ = some ts0 →
        lookupAssoc (ts0.metaQ.getD ⟨[], []⟩).labels cacheKey = none →
        lookupAssoc (ts.metaQ.getD ⟨[], []⟩).labels cacheKey
          = some "true") := by
  constructor
  · intro t ht ts hts
    rw [inline_tasks_spec hnd] at hok
    injection hok with h2
    rw [← h2] at ht
    rcases List.mem_map.mp ht with ⟨t0, _, heq⟩
    rw [← heq] at hts
    exact applyCacheLabel_present hts
  · intro t1 ts ts0 hpl h hts hown
    exact applyCacheLabel_default hpl h hts hown

def tW3 : TaskR :=
  ⟨"t3", none, none, some ⟨"tekton.dev/v1beta1", "Task", JVal.s "steps",
    none⟩⟩

theorem claim_C10_witness :
    (∀ t ∈ ([⟨"t3", none, none, some ⟨"tekton.dev/v1beta1", "Task",
        JVal.s "steps", some ⟨[(cacheKey, "true")], []⟩⟩⟩] : List TaskR),
      ∀ ts, t.taskSpecQ = some ts →
      (lookupAssoc (ts.metaQ.getD ⟨[], []⟩).labels cacheKey).isSome
        = true)
    ∧ lookupAssoc
        (((⟨"tekton.dev/v1beta1", "Task", JVal.s "steps",
            some ⟨[(cacheKey, "true")], []⟩⟩ : TaskSpecR).metaQ.getD
          ⟨[], []⟩).labels) cacheKey = some "true" := by
  have h := @claim_C10_cache_label [tW3] [] [] []
    ([⟨"t3", none, none, some ⟨"tekton.dev/v1beta1", "Task",
      JVal.s "steps", some ⟨[(cacheKey, "true")], []⟩⟩⟩], [])
    (by decide) (by rfl)
  refine ⟨h.1, ?_⟩
  exact h.2 tW3 ⟨"tekton.dev/v1beta1", "Task", JVal.s "steps",
      some ⟨[(cacheKey, "true")], []⟩⟩
    ⟨"tekton.dev/v1beta1", "Task", JVal.s "steps", none⟩
    rfl (by rfl) rfl rfl

/-! ## Output writing and final validation (`_create_and_write_workflow`,
`_write_workflow`, `_validate_workflow`)

Source, `compiler.py` lines 1872-1957, 1731-1782 and 1995-2040.  The
yaml serialization (`dump_yaml`, `_handle_tekton_pipeline_variables`,
`_process_argo_vars`) and the archive/file packaging are external
collaborators; the model takes the serializer as a function parameter
and records each completed file write as an event.  The model fixes the
constructor defaults `produce_taskspec = True` and `uuid = None` (lines
146 and 1943: both alternative branches only rewrite the document before
it is serialized). -/

inductive WEvent where
  | loopCR (i : Nat)
  | mainDoc
  | customCR (i : Nat)
deriving DecidableEq

/-- Character class `[^ \t\n.:,;{}]` of the unsupported-Argo-variable
regex (line 1751), first group. -/
def argoAChar (c : Char) : Bool :=
  !(c = ' ' || c = '\t' || c = '\n' || c = '.' || c = ':' || c = ','
    || c = ';' || c = '\x7b' || c = '\x7d')

/-- Character class `[^ \t\n:,;{}]` of the same regex, second group. -/
def argoBChar (c : Char) : Bool :=
  !(c = ' ' || c = '\t' || c = '\n' || c = ':' || c = ','
    || c = ';' || c = '\x7b' || c = '\x7d')

/-- A match of `\x7b\x7b[^ \t\n.:,;\x7b\x7d]+\.[^ \t\n:,;\x7b\x7d]+\x7d\x7d`
starting at the head of the list.  Both character classes exclude the
delimiters, so the greedy runs are forced and no backtracking arises. -/
def argoVarAt : List Char → Bool
  | '\x7b' :: '\x7b' :: rest =>
    if (rest.takeWhile argoAChar).isEmpty then false
    else
      match rest.drop (rest.takeWhile argoAChar).length with
      | '.' :: rest2 =>
        if (rest2.takeWhile argoBChar).isEmpty then false
        else
          match rest2.drop (rest2.takeWhile argoBChar).length with
          | '\x7d' :: '\x7d' :: _ => true
          | _ => false
      | _ => false
  | _ => false

/-- `re.findall(r"..", yaml_text)` is non-empty (line 1751). -/
def hasArgoVar (l : List Char) : Bool :=
  (List.range (l.length + 1)).any (fun i => argoVarAt (l.drop i))

/-- Lines 1750-1758: the serialized-text checks of `_write_workflow`. -/
def writeChecks (yamlText : List Char) : Except String Unit :=
  if hasArgoVar yamlText then
    .error "ValueError: Argo variables are not supported in Tekton"
  else if containsSub ppGuard yamlText then
    .error "RuntimeError: Found unresolved PipelineParam"
  else .ok ()

/-- Line 1763-1782: accepted output-path suffixes. -/
def okSuffix (p : String) : Bool :=
  ".tar.gz".data.isSuffixOf p.data || ".tgz".data.isSuffixOf p.data
    || ".zip".data.isSuffixOf p.data || ".yaml".data.isSuffixOf p.data
    || ".yml".data.isSuffixOf p.data

/-- `_write_workflow` with a package path (lines 1731-1782): text checks,
then the suffix dispatch; a completed call wrote the file. -/
def write_workflow (yamlText : List Char) (p : String) :
    Except String Unit :=
  match writeChecks yamlText with
  | .error e => .error e
  | .ok _ =>
    if okSuffix p then .ok ()
    else .error "ValueError: bad output path format"

/-- `os.path.splitext(package_path)[0]` (dot-in-directory edge cases
elided). -/
def splitExtBase (p : String) : String :=
  match lastOcc ['.'] p.data with
  | some i => ⟨p.data.take i⟩
  | none => p

def jGet (w : JVal) (k : String) : Option JVal :=
  match w with
  | .obj fields => lookupAssoc fields k
  | _ => none

def setAssocJ (fields : List (String × JVal)) (k : String) (v : JVal) :
    List (String × JVal) :=
  match fields with
  | [] => [(k, v)]
  | f :: rest => if f.1 = k then (k, v) :: rest else f :: setAssocJ rest k v

def jSet (w : JVal) (k : String) (v : JVal) : JVal :=
  match w with
  | .obj fields => .obj (setAssocJ fields k v)
  | other => other

/-- Lines 1900-1902: `workflow['metadata']['annotations'][key] = value`
(documents produced by `prepare_workflow` always carry both maps). -/
def annotInject (w : JVal) (k : String) (v : JVal) : JVal :=
  match jGet w "metadata" with
  | some meta =>
    match jGet meta "annotations" with
    | some ann => jSet w "metadata" (jSet meta "annotations" (jSet ann k v))
    | none => w
  | none => w

/-- Line 1892: `pipeline_loop_crs[i]['metadata'].get('name', "")` is
truthy. -/
def crNameTruthy (cr : JVal) : Bool :=
  match jGet cr "metadata" with
  | some meta =>
    match jGet meta "name" with
    | some (JVal.s s) => decide (s ≠ "")
    | some _ => true
    | none => false
  | none => false

def enumFrom {α : Type} (i : Nat) : List α → List (Nat × α)
  | [] => []
  | a :: rest => (i, a) :: enumFrom (i + 1) rest

/-- Lines 1890-1899: write each named loop construct to its own file
when `resource_in_separate_yaml` is set; otherwise serialize it and
collect the text for the resource-template annotation. -/
def processLoopCRs (ser : JVal → List Char) (sep : Bool) (base : String) :
    List (Nat × JVal) → List WEvent × Except String (List (List Char))
  | [] => ([], .ok [])
  | (i, cr) :: rest =>
    if crNameTruthy cr then
      if sep then
        match write_workflow (ser cr)
            (base ++ "_pipelineloop_cr" ++ toString (i + 1) ++ ".yaml") with
        | .ok _ =>
          match processLoopCRs ser sep base rest with
          | (evs, r) => (WEvent.loopCR i :: evs, r)
        | .error e => ([], .error e)
      else
        match writeChecks (ser cr) with
        | .ok _ =>
          match processLoopCRs ser sep base rest with
          | (evs, r) => (evs, r.map (fun ts => ser cr :: ts))
        | .error e => ([], .error e)
    else processLoopCRs ser sep base rest

/-- Lines 1953-1956: every custom-task construct is written to its own
file. -/
def processCustomCRs (ser : JVal → List Char) (base : String) :
    List (Nat × JVal) → List WEvent × Except String Unit
  | [] => ([], .ok ())
  | (i, cr) :: rest =>
    match write_workflow (ser cr)
        (base ++ "_customtask_cr" ++ toString (i + 1) ++ ".yaml") with
    | .ok _ =>
      match processCustomCRs ser base rest with
      | (evs, r) => (WEvent.customCR i :: evs, r)
    | .error e => ([], .error e)

/-- Lines 1900-1902: the main document, with the resource-template
annotation injected when any loop construct was collected inline
(`annotVal` abstracts `json.dumps` over the parsed texts). -/
def mainDocOf (annotVal : List (List Char) → String) (w : JVal)
    (texts : List (List Char)) : JVal :=
  if texts.isEmpty then w
  else annotInject w "tekton.dev/resource_templates" (JVal.s (annotVal texts))

/-- `s.lstrip "."` of line 2004. -/
def lstripDot (s : String) : String :=
  ⟨s.data.dropWhile (fun c => c == '.')⟩

mutual

/-- `_find_items` (lines 2001-2010): collect every value stored under
`key` anywhere in the document, with its dotted/indexed path. -/
def findItems (key : String) : JVal → String → List (String × JVal)
  | .obj fields, path =>
    (match lookupAssoc fields key with
     | some v => [(lstripDot (path ++ "." ++ key), v)]
     | none => []) ++ findItemsF key fields path
  | .arr items, path => findItemsA key items path 0
  | _, _ => []

def findItemsF (key : String) :
    List (String × JVal) → String → List (String × JVal)
  | [], _ => []
  | f :: rest, path =>
    findItems key f.2 (path ++ "." ++ f.1) ++ findItemsF key rest path

def findItemsA (key : String) :
    List JVal → String → Nat → List (String × JVal)
  | [], _, _ => []
  | v :: rest, path, i =>
    findItems key v (path ++ "[" ++ toString i ++ "]")
      ++ findItemsA key rest path (i + 1)

end

/-- Modelled from the spec: external sanitizer per-character action with
the `allow_capital_underscore` / `allow_dot` / `allow_slash` flags used
by `_validate_workflow`. -/
def sanCharF (capU allowDot allowSlash : Bool) (c : Char) : Char :=
  if c.isLower || c.isDigit || c = '-' then c
  else if capU && (c.isUpper || c = '_') then c
  else if allowDot && c = '.' then c
  else if allowSlash && c = '/' then c
  else if c.isUpper then c.toLower
  else '-'

/-- Modelled from the spec: the flagged external sanitizer on strings. -/
def sanitizeF (capU allowDot allowSlash : Bool) (s : String) : String :=
  ⟨s.data.map (sanCharF capU allowDot allowSlash)⟩

/-- Lines 2012-2014: a collected `name` entry violating the naming
grammar (length bounding elided, as in the sanitizer model). -/
def badNameEntry (path : String) (v : JVal) : Bool :=
  match v with
  | .s nm =>
    (strContains "metadata" path
      && decide (sanitize_k8s_name false nm ≠ nm))
    || (strContains "param" path && decide (sanitize_k8s_name_cu nm ≠ nm))
  | _ => false

/-- Lines 2016-2020: a collected `labels` map with a non-compliant key
or value. -/
def badLabelEntry (path : String) (v : JVal) : Bool :=
  strContains "metadata" path
    && (match v with
        | .obj kvs => kvs.any (fun kv =>
            decide (sanitizeF true true true kv.1 ≠ kv.1)
            || (match kv.2 with
                | .s sv => decide (sanitizeF true true false sv ≠ sv)
                | _ => false))
        | _ => false)

/-- Lines 2022-2025: a collected `annotations` map with a non-compliant
key. -/
def badAnnotEntry (path : String) (v : JVal) : Bool :=
  strContains "metadata" path
    && (match v with
        | .obj kvs => kvs.any (fun kv =>
            decide (sanitizeF true true true kv.1 ≠ kv.1))
        | _ => false)

/-- `_validate_workflow` (lines 1995-2040): fail on any non-compliant
name, then label, then annotation anywhere in the final document. -/
def validate_workflow (w : JVal) : Except String Unit :=
  if (findItems "name" w "").any (fun e => badNameEntry e.1 e.2) then
    .error "Internal compiler error: Found non-compliant Kubernetes names"
  else if (findItems "labels" w "").any (fun e => badLabelEntry e.1 e.2) then
    .error "Internal compiler error: Found non-compliant Kubernetes labels"
  else if (findItems "annotations" w "").any
      (fun e => badAnnotEntry e.1 e.2) then
    .error "Internal compiler error: Found non-compliant Kubernetes annotations"
  else .ok ()

/-- `_create_and_write_workflow` from `prepare_workflow`'s outputs on
(lines 1890-1957): loop-construct writes, the main document write (line
1950), the custom-task writes, and only then final validation (line
1957). -/
def create_and_write_workflow (ser : JVal → List Char)
    (annotVal : List (List Char) → String)
    (loopCRs customCRs : List JVal) (sep : Bool)
    (workflow : JVal) (packagePath : String) :
    List WEvent × Except String Unit :=
  match processLoopCRs ser sep (splitExtBase packagePath)
      (enumFrom 0 loopCRs) with
  | (evs1, .error e) => (evs1, .error e)
  | (evs1, .ok texts) =>
    match write_workflow (ser (mainDocOf annotVal workflow texts))
        packagePath with
    | .error e => (evs1, .error e)
    | .ok _ =>
      match processCustomCRs ser (splitExtBase packagePath)
          (enumFrom 0 customCRs) with
      | (evs2, .error e) => (evs1 ++ WEvent.mainDoc :: evs2, .error e)
      | (evs2, .ok _) =>
        (evs1 ++ WEvent.mainDoc :: evs2,
         validate_workflow (mainDocOf annotVal workflow texts))

def serC6 : JVal → List Char := fun _ => "apiVersion: tekton.dev/v1beta1".data

def wfC6 : JVal :=
  .obj [("metadata", .obj [("name", JVal.s "Bad_Name"),
          ("annotations", .obj [])]),
        ("spec", .obj [])]

/-- C6: the claim as frozen is false on the code.  `_validate_workflow`
runs only after the main document (and every custom-task document) has
been written (line 1950 and 1953 precede line 1957): a document whose
`metadata.name` violates the naming grammar passes every write-time
check, is written to the output file, and only then aborts compilation
with the validation error, so the failing compilation leaves the written
file behind. -/
theorem claim_C6_counterexample :
    (create_and_write_workflow serC6 (fun _ => "") [] [] false wfC6
        "pipeline.yaml").2
      = .error "Internal compiler error: Found non-compliant Kubernetes names"
    ∧ WEvent.mainDoc ∈ (create_and_write_workflow serC6 (fun _ => "")
        [] [] false wfC6 "pipeline.yaml").1 := by
  constructor
  · rfl
  · show WEvent.mainDoc ∈ [WEvent.mainDoc]
    exact List.mem_singleton.mpr rfl

/-- C6 (amended): write-time errors (unsupported variables, unresolved
parameter leftovers, bad output suffix) are raised by `_write_workflow`
before its file is produced, but the final-document grammar validation
runs only after all output is written: whenever the loop-construct
stage, the main write and the custom-task writes all succeed and
`_validate_workflow` rejects the document, compilation fails with the
validation error while the trace already contains the main-document
write. -/
theorem claim_C6_validate_after_write {ser : JVal → List Char}
    {annotVal : List (List Char) → String}
    {loopCRs customCRs : List JVal} {sep : Bool} {w : JVal} {p : String}
    {evs1 evs2 : List WEvent} {texts : List (List Char)} {e : String}
    (hloop : processLoopCRs ser sep (splitExtBase p) (enumFrom 0 loopCRs)
      = (evs1, .ok texts))
    (hmain : write_workflow (ser (mainDocOf annotVal w texts)) p = .ok ())
    (hcust : processCustomCRs ser (splitExtBase p) (enumFrom 0 customCRs)
      = (evs2, .ok ()))
    (hval : validate_workflow (mainDocOf annotVal w texts) = .error e) :
    create_and_write_workflow ser annotVal loopCRs customCRs sep w p
      = (evs1 ++ WEvent.mainDoc :: evs2, .error e)
    ∧ WEvent.mainDoc ∈ evs1 ++ WEvent.mainDoc :: evs2 := by
  constructor
  · simp only [create_and_write_workflow, hloop, hmain, hcust, hval]
  · simp

theorem claim_C6_witness :
    create_and_write_workflow serC6 (fun _ => "") [] [] false wfC6
        "pipeline.yaml"
      = ([] ++ WEvent.mainDoc :: [],
         .error "Internal compiler error: Found non-compliant Kubernetes names")
    ∧ WEvent.mainDoc ∈ ([] : List WEvent) ++ WEvent.mainDoc :: [] :=
  @claim_C6_validate_after_write serC6 (fun _ => "") [] [] false wfC6
    "pipeline.yaml" [] [] []
    "Internal compiler error: Found non-compliant Kubernetes names"
    rfl rfl rfl rfl

/-! ## When-predicate propagation over the run-after graph
(`_create_pipeline_workflow`, lines 1495-1531)

`populate_runafter_condition` copies the when-predicates of a task's
direct run-after upstreams into the task, skipping duplicates and
skipping a predicate when the task sits in a pipeline-loop task list
that does not contain the task referenced by the predicate's input.
The surrounding worklist (lines 1514-1531) pops tasks, defers a task
to the back of the queue while one of its run-after upstreams is still
queued (guarded by the visited-length check that breaks cycles), and
populates it otherwise.  The loop is modelled step-wise over an
explicit state, with fuel bounded by a measure proved sufficient. -/

structure WhenR where
  input : String
  operator : String
  values : List String
deriving DecidableEq

structure PTask where
  name : String
  runAfter : List String
  when : List WhenR
deriving DecidableEq

def resultsLit : List Char := ['r', 'e', 's', 'u', 'l', 't', 's']

def dollarTasksLit : List Char := ['$', '(', 't', 'a', 's', 'k', 's']

def anyNotNL (c : Char) : Bool := !(c = '\n')

/-- Tail of a match of the regex
`\$\(tasks.([^ \t\n.:,;\x7b\x7d]+).results.([^ \t\n.:,;\x7b\x7d]+)\)`
(line 1508) after the first capture group: one any-char, the literal
`results`, one any-char, then the greedy second group followed by `)`.
Since `)` belongs to the group's class, the group backtracks to the last
`)` inside its maximal run. -/
def tryTail (after : List Char) : Option (List Char) :=
  match after with
  | c2 :: after2 =>
    if anyNotNL c2 && resultsLit.isPrefixOf after2 then
      match after2.drop 7 with
      | c3 :: after4 =>
        if anyNotNL c3 then
          match lastOcc [')']
              (after4.take ((after4.takeWhile argoAChar).length + 1)) with
          | some j => if 1 ≤ j then some (after4.take j) else none
          | none => none
        else none
      | [] => none
    else none
  | [] => none

/-- Greedy first capture group: the longest prefix of the maximal
character-class run after which the rest of the pattern matches. -/
def tryG1 (rest1 : List Char) : Nat → Option (List Char × List Char)
  | 0 => none
  | k + 1 =>
    match tryTail (rest1.drop (k + 1)) with
    | some g2 => some (rest1.take (k + 1), g2)
    | none => tryG1 rest1 k

/-- A match of the task-result-reference regex starting at the head of
the list; returns the two capture groups. -/
def trMatchAt (l : List Char) : Option (List Char × List Char) :=
  if dollarTasksLit.isPrefixOf l then
    match l.drop 7 with
    | c1 :: rest1 =>
      if anyNotNL c1 then tryG1 rest1 (rest1.takeWhile argoAChar).length
      else none
    | [] => none
  else none

/-- `re.findall(r'\$\(tasks...', when_item['input'])[0][0]`: the first
match's first capture group (line 1508-1509). -/
def firstTaskRef (s : String) : Option String :=
  ((List.range (s.data.length + 1)).findSome?
    (fun i => trMatchAt (s.data.drop i))).map (fun g => ⟨g.1⟩)

/-- Lines 1505-1510: the predicate is dropped when the task lives in a
pipeline-loop task list that does not contain the task referenced by
the predicate's input. -/
def blockedWhen (loops : List (List String)) (tname : String)
    (w : WhenR) : Bool :=
  loops.any (fun lp => decide (tname ∈ lp) &&
    (match firstTaskRef w.input with
     | some g1 => decide (g1 ∉ lp)
     | none => false))

/-- Lines 1502-1512: append each upstream predicate that is not already
present and not blocked by the loop-scope guard. -/
def addWhenItems (loops : List (List String)) (tname : String)
    (acc : List WhenR) (items : List WhenR) : List WhenR :=
  items.foldl (fun cur w =>
    if w ∈ cur then cur
    else if blockedWhen loops tname w then cur
    else cur ++ [w]) acc

/-- `populate_runafter_condition` (lines 1495-1512): copy the predicates
of every direct run-after upstream, in task-list order. -/
def populateTask (loops : List (List String)) (ws : List PTask)
    (task : PTask) : PTask :=
  if task.runAfter ≠ [] then
    { task with when := ws.foldl (fun cur t =>
        if t.name ∈ task.runAfter ∧ t.when ≠ [] then
          addWhenItems loops task.name cur t.when
        else cur) task.when }
  else task

def findTask (ws : List PTask) (pname : String) : Option PTask :=
  ws.find? (fun t => t.name == pname)

/-- In-place mutation of the (uniquely named) task object. -/
def updateTask (ws : List PTask) (t : PTask) : List PTask :=
  ws.map (fun x => if x.name = t.name then t else x)

def setAssoc {α : Type} (l : List (String × α)) (k : String) (v : α) :
    List (String × α) :=
  match l with
  | [] => [(k, v)]
  | e :: rest => if e.1 = k then (k, v) :: rest else e :: setAssoc rest k v

/-- State of the worklist loop (lines 1514-1531): the mutable task list,
the queue of task names, and the visited-length map. -/
structure QState where
  ws : List PTask
  queue : List String
  visited : List (String × Nat)

/-- One iteration of the `while task_queue` loop (lines 1520-1531):
defer the popped task to the back when one of its run-after upstreams is
still queued and the visited-length guard allows it; populate it
otherwise. -/
def qstep (loops : List (List String)) (s : QState) : Option QState :=
  match s.queue with
  | [] => none
  | pname :: qrest =>
    match findTask s.ws pname with
    | none => some ⟨s.ws, qrest, s.visited⟩
    | some popped =>
      if (∃ q ∈ qrest, q ∈ popped.runAfter)
          ∧ lookupAssoc s.visited pname ≠ some qrest.length then
        some ⟨s.ws, qrest ++ [pname], setAssoc s.visited pname qrest.length⟩
      else
        some ⟨updateTask s.ws (populateTask loops s.ws popped), qrest,
          s.visited⟩

def runQueueF (loops : List (List String)) : Nat → QState → QState
  | 0, s => s
  | f + 1, s =>
    match qstep loops s with
    | none => s
    | some s2 => runQueueF loops f s2

/-- Queue entries whose stored visited length differs from the current
queue length minus one; a deferral always repairs one of them. -/
def badCount (s : QState) : Nat :=
  (s.queue.filter (fun q =>
    decide (lookupAssoc s.visited q ≠ some (s.queue.length - 1)))).length

/-- Termination measure of the worklist. -/
def qMeasure (s : QState) : Nat :=
  s.queue.length * (s.queue.length + 1) + badCount s

/-- The initial worklist state (lines 1515-1519): every task with a
truthy `runAfter` is enqueued in task-list order. -/
def initQState (tasks : List PTask) : QState :=
  ⟨tasks, (tasks.filter (fun t => !t.runAfter.isEmpty)).map
    (fun t => t.name), []⟩

/-- The whole when-propagation pass: run the worklist to completion
(the measure bounds the number of iterations, see the termination
theorem). -/
def populate_conditions (loops : List (List String))
    (tasks : List PTask) : List PTask :=
  (runQueueF loops (qMeasure (initQState tasks)) (initQState tasks)).ws

/-- The run-after edge relation on task names: `u` runs after `v`. -/
def raEdge (tasks : List PTask) (u v : String) : Prop :=
  ∃ t ∈ tasks, t.name = u ∧ v ∈ t.runAfter

theorem lookup_setAssoc_self {α : Type} (l : List (String × α))
    (k : String) (v : α) :
    lookupAssoc (setAssoc l k v) k = some v := by
  induction l with
  | nil => simp [setAssoc, lookupAssoc]
  | cons e rest ih =>
    rw [setAssoc]
    by_cases he : e.1 = k
    · rw [if_pos he, lookupAssoc, if_pos rfl]
    · rw [if_neg he, lookupAssoc, if_neg he]
      exact ih

theorem lookup_setAssoc_ne {α : Type} (l : List (String × α))
    {k k2 : String} (h : k2 ≠ k) (v : α) :
    lookupAssoc (setAssoc l k v) k2 = lookupAssoc l k2 := by
  induction l with
  | nil =>
    simp only [setAssoc, lookupAssoc]
    rw [if_neg (fun hc => h hc.symm)]
  | cons e rest ih =>
    rw [setAssoc]
    by_cases he : e.1 = k
    · rw [if_pos he, lookupAssoc, if_neg (fun hc => h hc.symm),
        lookupAssoc, he, if_neg (fun hc => h hc.symm)]
    · rw [if_neg he, lookupAssoc, lookupAssoc]
      by_cases he2 : e.1 = k2
      · rw [if_pos he2, if_pos he2]
      · rw [if_neg he2, if_neg he2]
        exact ih

theorem filter_length_mono {α : Type} {p q : α → Bool} (l : List α)
    (h : ∀ a ∈ l, p a = true → q a = true) :
    (l.filter p).length ≤ (l.filter q).length := by
  induction l with
  | nil => simp
  | cons a rest ih =>
    have hrest := ih (fun x hx => h x (List.mem_cons_of_mem a hx))
    by_cases hp : p a = true
    · rw [List.filter_cons_of_pos hp,
        List.filter_cons_of_pos (h a (List.mem_cons_self a rest) hp)]
      simpa using hrest
    · rw [List.filter_cons_of_neg (by simpa using hp)]
      by_cases hq : q a = true
      · rw [List.filter_cons_of_pos hq]
        exact le_trans hrest (by simp)
      · rw [List.filter_cons_of_neg (by simpa using hq)]
        exact hrest

theorem qMeasure_tail {s : QState} {p : String} {qrest : List String}
    (hq : s.queue = p :: qrest) (ws2 : List PTask)
    (vis2 : List (String × Nat)) :
    qMeasure ⟨ws2, qrest, vis2⟩ < qMeasure s := by
  have hb : badCount ⟨ws2, qrest, vis2⟩ ≤ qrest.length := by
    exact List.length_filter_le _ _
  have hlen : s.queue.length = qrest.length + 1 := by rw [hq]; rfl
  rw [qMeasure, qMeasure, hlen]
  have hb0 : 0 ≤ badCount s := Nat.zero_le _
  nlinarith [hb, hb0]

theorem qMeasure_defer {s : QState} {p : String} {qrest : List String}
    (hq : s.queue = p :: qrest)
    (hg : lookupAssoc s.visited p ≠ some qrest.length) (ws2 : List PTask) :
    qMeasure ⟨ws2, qrest ++ [p], setAssoc s.visited p qrest.length⟩
      < qMeasure s := by
  have hlen1 : (qrest ++ [p]).length = qrest.length + 1 := by simp
  have hlen : s.queue.length = qrest.length + 1 := by rw [hq]; rfl
  have hbad2 :
      badCount ⟨ws2, qrest ++ [p], setAssoc s.visited p qrest.length⟩
        < badCount s := by
    rw [badCount, badCount]
    simp only [hq, hlen1, List.length_cons, Nat.add_sub_cancel]
    have hp2 : (List.filter (fun q => decide
        (lookupAssoc (setAssoc s.visited p qrest.length) q
          ≠ some qrest.length)) [p]) = [] := by
      rw [List.filter_cons_of_neg (by simp [lookup_setAssoc_self]),
        List.filter_nil]
    rw [List.filter_append, hp2, List.append_nil,
      List.filter_cons_of_pos (by simpa using hg)]
    have hmono : (List.filter (fun q => decide
        (lookupAssoc (setAssoc s.visited p qrest.length) q
          ≠ some qrest.length)) qrest).length
        ≤ (List.filter (fun q => decide
          (lookupAssoc s.visited q ≠ some qrest.length)) qrest).length := by
      apply filter_length_mono
      intro a _ hp
      by_cases hap : a = p
      · subst hap
        simp [lookup_setAssoc_self] at hp
      · rw [lookup_setAssoc_ne _ hap] at hp
        exact hp
    simp only [List.length_cons]
    omega
  have h1 : qMeasure ⟨ws2, qrest ++ [p], setAssoc s.visited p
      qrest.length⟩ = (qrest.length + 1) * (qrest.length + 1 + 1)
        + badCount ⟨ws2, qrest ++ [p], setAssoc s.visited p
          qrest.length⟩ := by
    rw [qMeasure, hlen1]
  have h2 : qMeasure s = (qrest.length + 1) * (qrest.length + 1 + 1)
      + badCount s := by
    rw [qMeasure, hlen]
  rw [h1, h2]
  exact Nat.add_lt_add_left hbad2 _

theorem qstep_cons {loops : List (List String)} {s : QState}
    {p : String} {qrest : List String} (hq : s.queue = p :: qrest) :
    qstep loops s = (match findTask s.ws p with
      | none => some ⟨s.ws, qrest, s.visited⟩
      | some popped =>
        if (∃ q ∈ qrest, q ∈ popped.runAfter)
            ∧ lookupAssoc s.visited p ≠ some qrest.length then
          some ⟨s.ws, qrest ++ [p], setAssoc s.visited p qrest.length⟩
        else some ⟨updateTask s.ws (populateTask loops s.ws popped),
          qrest, s.visited⟩) := by
  rw [qstep, hq]

theorem qstep_cons_missing {loops : List (List String)} {s : QState}
    {p : String} {qrest : List String} (hq : s.queue = p :: qrest)
    (hft : findTask s.ws p = none) :
    qstep loops s = some ⟨s.ws, qrest, s.visited⟩ := by
  rw [qstep_cons hq, hft]

theorem qstep_cons_found {loops : List (List String)} {s : QState}
    {p : String} {qrest : List String} {popped : PTask}
    (hq : s.queue = p :: qrest) (hft : findTask s.ws p = some popped) :
    qstep loops s
      = (if (∃ q ∈ qrest, q ∈ popped.runAfter)
            ∧ lookupAssoc s.visited p ≠ some qrest.length then
          some ⟨s.ws, qrest ++ [p], setAssoc s.visited p qrest.length⟩
        else some ⟨updateTask s.ws (populateTask loops s.ws popped),
          qrest, s.visited⟩) := by
  rw [qstep_cons hq, hft]

theorem qstep_some {loops : List (List String)} {s : QState}
    {p : String} {qrest : List String} (hq : s.queue = p :: qrest) :
    ∃ s2, qstep loops s = some s2 ∧ qMeasure s2 < qMeasure s := by
  cases hft : findTask s.ws p with
  | none => exact ⟨_, qstep_cons_missing hq hft, qMeasure_tail hq _ _⟩
  | some popped =>
    by_cases hc : (∃ q ∈ qrest, q ∈ popped.runAfter)
        ∧ lookupAssoc s.visited p ≠ some qrest.length
    · refine ⟨⟨s.ws, qrest ++ [p], setAssoc s.visited p qrest.length⟩,
        ?_, qMeasure_defer hq hc.2 s.ws⟩
      rw [qstep_cons_found hq hft, if_pos hc]
    · refine ⟨⟨updateTask s.ws (populateTask loops s.ws popped), qrest,
        s.visited⟩, ?_, qMeasure_tail hq _ _⟩
      rw [qstep_cons_found hq hft, if_neg hc]

theorem qstep_empty {loops : List (List String)} {s : QState}
    (hq : s.queue = []) : qstep loops s = none := by
  rw [qstep, hq]

theorem runQueueF_fix {loops : List (List String)} {s : QState}
    (hq : s.queue = []) : ∀ f, runQueueF loops f s = s := by
  intro f
  cases f with
  | zero => rfl
  | succ f => rw [runQueueF, qstep_empty hq]

theorem runQueueF_drains (loops : List (List String)) :
    ∀ (n : Nat) (s : QState), qMeasure s ≤ n →
    (runQueueF loops n s).queue = [] := by
  intro n
  induction n with
  | zero =>
    intro s hm
    cases hq : s.queue with
    | nil => rw [runQueueF]; exact hq
    | cons p qrest =>
      exfalso
      have h1 : 1 ≤ s.queue.length := by rw [hq]; simp
      have h2 : s.queue.length * (s.queue.length + 1) ≤ qMeasure s :=
        Nat.le_add_right _ _
      have h3 : 2 ≤ qMeasure s := le_trans (by nlinarith [h1]) h2
      omega
  | succ n ih =>
    intro s hm
    cases hq : s.queue with
    | nil => rw [runQueueF, qstep_empty hq]; exact hq
    | cons p qrest =>
      rcases @qstep_some loops s p qrest hq with ⟨s2, hstep, hdec⟩
      rw [runQueueF, hstep]
      exact ih s2 (by omega)

theorem runQueueF_succ_of_step {loops : List (List String)}
    {s s2 : QState} (f : Nat) (hstep : qstep loops s = some s2) :
    runQueueF loops (f + 1) s = runQueueF loops f s2 := by
  rw [runQueueF, hstep]

theorem runQueueF_add (loops : List (List String)) :
    ∀ (b a : Nat) (s : QState),
    runQueueF loops (a + b) s = runQueueF loops a (runQueueF loops b s) := by
  intro b
  induction b with
  | zero => intro a s; rfl
  | succ b ih =>
    intro a s
    cases hq : s.queue with
    | nil =>
      rw [runQueueF_fix hq, runQueueF_fix hq, runQueueF_fix hq]
    | cons p qrest =>
      rcases @qstep_some loops s p qrest hq with ⟨s2, hstep, _⟩
      have hs : a + (b + 1) = (a + b) + 1 := by omega
      rw [hs, runQueueF_succ_of_step (a + b) hstep, ih a s2,
        runQueueF_succ_of_step b hstep]

/-- C3: the when-propagation worklist terminates on every input task
list, cyclic run-after graphs included: running the loop for
`qMeasure` of the initial state many iterations empties the queue, and
any further iterations change nothing. -/
theorem claim_C3_termination (loops : List (List String))
    (tasks : List PTask) :
    (runQueueF loops (qMeasure (initQState tasks))
        (initQState tasks)).queue = []
    ∧ ∀ f, qMeasure (initQState tasks) ≤ f →
        runQueueF loops f (initQState tasks)
          = runQueueF loops (qMeasure (initQState tasks))
              (initQState tasks) := by
  constructor
  · exact runQueueF_drains loops _ _ (le_refl _)
  · intro f hf
    have hsplit : f = qMeasure (initQState tasks)
        + (f - qMeasure (initQState tasks)) := by omega
    rw [hsplit, Nat.add_comm, runQueueF_add]
    exact runQueueF_fix (runQueueF_drains loops _ _ (le_refl _)) _

/-- Cyclic two-task pipeline used to exercise the termination theorem:
each task runs after the other. -/
def tasksC3 : List PTask :=
  [⟨"a", ["b"], []⟩, ⟨"b", ["a"], []⟩]

theorem claim_C3_witness :
    (runQueueF [] (qMeasure (initQState tasksC3))
        (initQState tasksC3)).queue = []
    ∧ runQueueF [] (qMeasure (initQState tasksC3) + 5) (initQState tasksC3)
        = runQueueF [] (qMeasure (initQState tasksC3))
            (initQState tasksC3) := by
  refine ⟨(claim_C3_termination [] tasksC3).1, ?_⟩
  exact (claim_C3_termination [] tasksC3).2
    (qMeasure (initQState tasksC3) + 5) (by omega)

theorem cycle_of_succ {α : Type} [DecidableEq α] {R : α → α → Prop}
    {S : List α} (hne : S ≠ [])
    (h : ∀ x ∈ S, ∃ y, y ∈ S ∧ R x y) :
    ∃ n, Relation.TransGen R n n := by
  classical
  let F : Nat → {x // x ∈ S} := fun n =>
    @Nat.rec (fun _ => {x // x ∈ S}) ⟨S.head hne, List.head_mem hne⟩
      (fun _ prev => ⟨(h prev.1 prev.2).choose,
        ((h prev.1 prev.2).choose_spec).1⟩) n
  have hchain : ∀ n, R (F n).1 (F (n + 1)).1 := by
    intro n
    exact ((h (F n).1 (F n).2).choose_spec).2
  have htrans : ∀ i k, Relation.TransGen R (F i).1 (F (i + k + 1)).1 := by
    intro i k
    induction k with
    | zero => exact Relation.TransGen.single (hchain i)
    | succ k ih =>
      have h2 := Relation.TransGen.tail ih (hchain (i + k + 1))
      have harith : i + (k + 1) + 1 = i + k + 1 + 1 := by omega
      rw [harith]
      exact h2
  obtain ⟨i, j, hij, hGij⟩ := Fintype.exists_ne_map_eq_of_card_lt
    (fun i : Fin (S.toFinset.card + 1) =>
      (⟨(F i.1).1, List.mem_toFinset.mpr (F i.1).2⟩ :
        {x // x ∈ S.toFinset}))
    (by rw [Fintype.card_coe, Fintype.card_fin]; omega)
  have hval : (F i.1).1 = (F j.1).1 := by
    have h4 : ((⟨(F i.1).1, List.mem_toFinset.mpr (F i.1).2⟩ :
          {x // x ∈ S.toFinset}) : α)
        = ((⟨(F j.1).1, List.mem_toFinset.mpr (F j.1).2⟩ :
          {x // x ∈ S.toFinset}) : α) := by
      rw [hGij]
    exact h4
  have hij2 : i.1 ≠ j.1 := fun hc => hij (Fin.ext hc)
  rcases Nat.lt_or_ge i.1 j.1 with hlt | hge
  · have h3 := htrans i.1 (j.1 - i.1 - 1)
    have harith : i.1 + (j.1 - i.1 - 1) + 1 = j.1 := by omega
    rw [harith] at h3
    rw [← hval] at h3
    exact ⟨(F i.1).1, h3⟩
  · have h3 := htrans j.1 (i.1 - j.1 - 1)
    have harith : j.1 + (i.1 - j.1 - 1) + 1 = i.1 := by omega
    rw [harith] at h3
    rw [hval] at h3
    exact ⟨(F j.1).1, h3⟩

theorem acyclic_of_rank {R : String → String → Prop}
    (rank : String → Nat) (h : ∀ u v, R u v → rank v < rank u) :
    ∀ n, ¬ Relation.TransGen R n n := by
  intro n hc
  have hlt : ∀ a b, Relation.TransGen R a b → rank b < rank a := by
    intro a b htg
    induction htg with
    | single h1 => exact h _ _ h1
    | tail _ h2 ih => exact lt_trans (h _ _ h2) ih
  exact absurd (hlt n n hc) (lt_irrefl _)

theorem frame_names {tasks ws : List PTask}
    (hf : ws.map (fun t => (t.name, t.runAfter))
      = tasks.map (fun t => (t.name, t.runAfter))) :
    ws.map PTask.name = tasks.map PTask.name := by
  have h2 := congrArg (List.map Prod.fst) hf
  simpa [List.map_map, Function.comp] using h2

theorem frame_elem {tasks ws : List PTask}
    (hf : ws.map (fun t => (t.name, t.runAfter))
      = tasks.map (fun t => (t.name, t.runAfter)))
    {tw : PTask} (htw : tw ∈ ws) :
    ∃ t0 ∈ tasks, t0.name = tw.name ∧ t0.runAfter = tw.runAfter := by
  have hmem : (tw.name, tw.runAfter)
      ∈ tasks.map (fun t => (t.name, t.runAfter)) := by
    rw [← hf]
    exact List.mem_map_of_mem _ htw
  rcases List.mem_map.mp hmem with ⟨t0, ht0, heq⟩
  rw [Prod.mk.injEq] at heq
  exact ⟨t0, ht0, heq.1, heq.2⟩

theorem frame_elem_rev {tasks ws : List PTask}
    (hf : ws.map (fun t => (t.name, t.runAfter))
      = tasks.map (fun t => (t.name, t.runAfter)))
    {t0 : PTask} (ht0 : t0 ∈ tasks) :
    ∃ tw ∈ ws, tw.name = t0.name ∧ tw.runAfter = t0.runAfter := by
  rcases frame_elem hf.symm ht0 with ⟨tw, htw, h1, h2⟩
  exact ⟨tw, htw, h1, h2⟩

theorem findTask_mem {ws : List PTask} {p : String} {popped : PTask}
    (h : findTask ws p = some popped) :
    popped ∈ ws ∧ popped.name = p :=
  ⟨List.mem_of_find?_eq_some h, by simpa using List.find?_some h⟩

theorem findTask_found {ws : List PTask} {p : String}
    (h : ∃ tw ∈ ws, tw.name = p) :
    ∃ popped, findTask ws p = some popped := by
  rcases h with ⟨tw, htw, hn⟩
  have h2 : (findTask ws p).isSome :=
    List.find?_isSome.mpr ⟨tw, htw, by simpa using hn⟩
  exact Option.isSome_iff_exists.mp h2

theorem populateTask_when (loops : List (List String)) (ws : List PTask)
    (t0 : PTask) :
    (populateTask loops ws t0).when
      = (if t0.runAfter ≠ [] then
          ws.foldl (fun cur t =>
            if t.name ∈ t0.runAfter ∧ t.when ≠ [] then
              addWhenItems loops t0.name cur t.when
            else cur) t0.when
        else t0.when) := by
  rw [populateTask]
  by_cases hra : t0.runAfter ≠ []
  · rw [if_pos hra, if_pos hra]
  · rw [if_neg hra, if_neg hra]

theorem populateTask_name (loops : List (List String)) (ws : List PTask)
    (t0 : PTask) : (populateTask loops ws t0).name = t0.name := by
  rw [populateTask]
  by_cases hra : t0.runAfter ≠ []
  · rw [if_pos hra]
  · rw [if_neg hra]

theorem populateTask_runAfter (loops : List (List String))
    (ws : List PTask) (t0 : PTask) :
    (populateTask loops ws t0).runAfter = t0.runAfter := by
  rw [populateTask]
  by_cases hra : t0.runAfter ≠ []
  · rw [if_pos hra]
  · rw [if_neg hra]

theorem populateTask_congr {loops : List (List String)} {t0 : PTask}
    {ws ws2 : List PTask}
    (hf : List.Forall₂ (fun a b => a.name = b.name
      ∧ (a.name ∈ t0.runAfter → a.when = b.when)) ws ws2) :
    (populateTask loops ws t0).when = (populateTask loops ws2 t0).when := by
  have hgen : ∀ {l1 l2 : List PTask},
      List.Forall₂ (fun a b => a.name = b.name
        ∧ (a.name ∈ t0.runAfter → a.when = b.when)) l1 l2 →
      ∀ cur : List WhenR,
      l1.foldl (fun cur t =>
        if t.name ∈ t0.runAfter ∧ t.when ≠ [] then
          addWhenItems loops t0.name cur t.when
        else cur) cur
      = l2.foldl (fun cur t =>
        if t.name ∈ t0.runAfter ∧ t.when ≠ [] then
          addWhenItems loops t0.name cur t.when
        else cur) cur := by
    intro l1 l2 hf2
    induction hf2 with
    | nil => intro cur; rfl
    | @cons a b l1t l2t hab hrest ih =>
      intro cur
      rw [List.foldl_cons, List.foldl_cons]
      have hstep : (if b.name ∈ t0.runAfter ∧ b.when ≠ [] then
            addWhenItems loops t0.name cur b.when
          else cur)
          = (if a.name ∈ t0.runAfter ∧ a.when ≠ [] then
            addWhenItems loops t0.name cur a.when
          else cur) := by
        by_cases hmem : a.name ∈ t0.runAfter
        · rw [← hab.1, ← hab.2 hmem]
        · rw [if_neg (fun hc => hmem (by rw [hab.1]; exact hc.1)),
            if_neg (fun hc => hmem hc.1)]
      rw [hstep]
      exact ih _
  rw [populateTask_when, populateTask_when]
  by_cases hra : t0.runAfter ≠ []
  · rw [if_pos hra, if_pos hra]
    exact hgen hf t0.when
  · rw [if_neg hra, if_neg hra]

theorem forall2_map_self {α : Type} {r : α → α → Prop} (g : α → α)
    {l : List α} (h : ∀ x ∈ l, r x (g x)) :
    List.Forall₂ r l (l.map g) := by
  induction l with
  | nil => exact List.Forall₂.nil
  | cons a rest ih =>
    exact List.Forall₂.cons (h a (List.mem_cons_self a rest))
      (ih (fun x hx => h x (List.mem_cons_of_mem a hx)))

theorem addWhenItems_cons (loops : List (List String)) (tname : String)
    (acc : List WhenR) (w : WhenR) (rest : List WhenR) :
    addWhenItems loops tname acc (w :: rest)
      = addWhenItems loops tname
          (if w ∈ acc then acc
           else if blockedWhen loops tname w then acc
           else acc ++ [w]) rest := by
  rw [addWhenItems, addWhenItems, List.foldl_cons]

theorem addWhenItems_nodup (loops : List (List String)) (tname : String) :
    ∀ (items : List WhenR) (acc : List WhenR), acc.Nodup →
    (addWhenItems loops tname acc items).Nodup := by
  intro items
  induction items with
  | nil => intro acc h; exact h
  | cons w rest ih =>
    intro acc h
    rw [addWhenItems_cons]
    apply ih
    by_cases hw : w ∈ acc
    · rw [if_pos hw]; exact h
    · rw [if_neg hw]
      by_cases hb : blockedWhen loops tname w = true
      · rw [if_pos hb]; exact h
      · rw [if_neg hb]
        simp [List.nodup_append, h, hw]

theorem populateTask_nodup {loops : List (List String)}
    {ws : List PTask} {t0 : PTask} (h : t0.when.Nodup) :
    (populateTask loops ws t0).when.Nodup := by
  rw [populateTask_when]
  by_cases hra : t0.runAfter ≠ []
  · rw [if_pos hra]
    have hgen : ∀ (l : List PTask) (cur : List WhenR), cur.Nodup →
        (l.foldl (fun cur t =>
          if t.name ∈ t0.runAfter ∧ t.when ≠ [] then
            addWhenItems loops t0.name cur t.when
          else cur) cur).Nodup := by
      intro l
      induction l with
      | nil => intro cur hc; exact hc
      | cons t rest ih =>
        intro cur hc
        rw [List.foldl_cons]
        apply ih
        by_cases hcond : t.name ∈ t0.runAfter ∧ t.when ≠ []
        · rw [if_pos hcond]
          exact addWhenItems_nodup loops t0.name t.when cur hc
        · rw [if_neg hcond]
          exact hc
    exact hgen ws t0.when h
  · rw [if_neg hra]
    exact h

/-- The execution invariant of the when-propagation worklist: the task
list keeps its names and run-after lists; the queue holds distinct
names of run-after-carrying tasks; a still-queued task carries its
initial predicates while a finished task satisfies the populate
fixpoint with no queued upstream; and every visited-length entry bounds
its holder's queue position, with equality certifying that every task
behind the holder still has a queued upstream. -/
structure WInv (loops : List (List String)) (tasks : List PTask)
    (s : QState) : Prop where
  frame : s.ws.map (fun t => (t.name, t.runAfter))
    = tasks.map (fun t => (t.name, t.runAfter))
  qnodup : s.queue.Nodup
  qtasks : ∀ q ∈ s.queue, ∃ t ∈ tasks, t.name = q ∧ t.runAfter ≠ []
  whens : ∀ tf ∈ s.ws, ∀ t0 ∈ tasks, tf.name = t0.name →
      (tf.name ∈ s.queue → tf.when = t0.when)
    ∧ (tf.name ∉ s.queue →
        tf.when = (populateTask loops s.ws t0).when
        ∧ ∀ u ∈ t0.runAfter, u ∉ s.queue)
  guard : ∀ A T B, s.queue = A ++ T :: B →
      ∀ v, lookupAssoc s.visited T = some v →
      A.length + B.length ≤ v
      ∧ (A.length + B.length = v →
          ∀ X ∈ B, ∃ tx ∈ tasks, tx.name = X
            ∧ ∃ y ∈ s.queue, y ∈ tx.runAfter)

theorem winv_init {loops : List (List String)} {tasks : List PTask}
    (hnodup : (tasks.map PTask.name).Nodup) :
    WInv loops tasks (initQState tasks) := by
  refine ⟨rfl, ?_, ?_, ?_, ?_⟩
  · exact hnodup.sublist ((List.filter_sublist tasks).map PTask.name)
  · intro q hq
    rcases List.mem_map.mp hq with ⟨t, ht, hn⟩
    have ht2 := List.mem_filter.mp ht
    refine ⟨t, ht2.1, hn, ?_⟩
    intro hc
    rw [hc] at ht2
    simpa using ht2.2
  · intro tf htf t0 ht0 hn
    have hteq : tf = t0 := List.inj_on_of_nodup_map hnodup htf ht0 hn
    subst hteq
    constructor
    · intro _; rfl
    · intro hnq
      have hra : tf.runAfter = [] := by
        by_contra hra
        exact hnq (List.mem_map_of_mem PTask.name
          (List.mem_filter.mpr ⟨htf, by simpa using hra⟩))
      rw [populateTask_when, if_neg (by simpa using hra)]
      exact ⟨rfl, by rw [hra]; intro u hu; cases hu⟩
  · intro A T B _ v hv
    simp [lookupAssoc] at hv

theorem concat_split_eq {α : Type} :
    ∀ {A qrest B : List α} {p T : α},
    qrest ++ [p] = A ++ T :: B →
    (B = [] ∧ T = p ∧ A = qrest)
    ∨ (∃ B2, B = B2 ++ [p] ∧ qrest = A ++ T :: B2) := by
  intro A
  induction A with
  | nil =>
    intro qrest B p T h
    rw [List.nil_append] at h
    cases qrest with
    | nil =>
      rw [List.nil_append] at h
      injection h with h1 h2
      exact Or.inl ⟨h2.symm, h1.symm, rfl⟩
    | cons x xs =>
      rw [List.cons_append] at h
      injection h with h1 h2
      exact Or.inr ⟨xs, h2.symm, by rw [List.nil_append, h1]⟩
  | cons a A2 ih =>
    intro qrest B p T h
    cases qrest with
    | nil =>
      rw [List.nil_append, List.cons_append] at h
      injection h with h1 h2
      exact absurd h2 (by simp)
    | cons x xs =>
      rw [List.cons_append, List.cons_append] at h
      injection h with h1 h2
      rcases ih h2 with ⟨hB, hT, hA⟩ | ⟨B2, hB, hqr⟩
      · exact Or.inl ⟨hB, hT, by rw [hA, h1]⟩
      · exact Or.inr ⟨B2, hB, by rw [List.cons_append, hqr, h1]⟩

theorem winv_defer {loops : List (List String)} {tasks : List PTask}
    {s : QState} {p : String} {qrest : List String} {popped : PTask}
    (hinv : WInv loops tasks s) (hq : s.queue = p :: qrest)
    (hft : findTask s.ws p = some popped)
    (hc1 : ∃ q ∈ qrest, q ∈ popped.runAfter) :
    WInv loops tasks
      ⟨s.ws, qrest ++ [p], setAssoc s.visited p qrest.length⟩ := by
  have hqnd : (p :: qrest).Nodup := hq ▸ hinv.qnodup
  have hpnotin : p ∉ qrest := (List.nodup_cons.mp hqnd).1
  have hset : ∀ x, x ∈ qrest ++ [p] ↔ x ∈ s.queue := by
    intro x
    rw [hq]
    simp only [List.mem_append, List.mem_singleton, List.mem_cons]
    tauto
  obtain ⟨hpm, hpn⟩ := findTask_mem hft
  obtain ⟨t0p, ht0p, ht0pn, ht0pra⟩ := frame_elem hinv.frame hpm
  have h2 : (qrest ++ [p]).Nodup := by
    apply List.Nodup.append (List.nodup_cons.mp hqnd).2 (by simp)
    intro a ha hb
    rw [List.mem_singleton] at hb
    rw [hb] at ha
    exact hpnotin ha
  have h3 : ∀ q ∈ qrest ++ [p],
      ∃ t ∈ tasks, t.name = q ∧ t.runAfter ≠ [] := by
    intro q hq2
    exact hinv.qtasks q ((hset q).mp hq2)
  have h4 : ∀ tf ∈ s.ws, ∀ t0 ∈ tasks, tf.name = t0.name →
      (tf.name ∈ qrest ++ [p] → tf.when = t0.when)
    ∧ (tf.name ∉ qrest ++ [p] →
        tf.when = (populateTask loops s.ws t0).when
        ∧ ∀ u ∈ t0.runAfter, u ∉ qrest ++ [p]) := by
    intro tf htf t0 ht0 hn
    obtain ⟨hin, hout⟩ := hinv.whens tf htf t0 ht0 hn
    constructor
    · intro hmem
      exact hin ((hset tf.name).mp hmem)
    · intro hnmem
      have hns : tf.name ∉ s.queue := fun hc =>
        hnmem ((hset tf.name).mpr hc)
      obtain ⟨hweq, hups⟩ := hout hns
      exact ⟨hweq, fun u hu hc => hups u hu ((hset u).mp hc)⟩
  have h5 : ∀ A T B, qrest ++ [p] = A ++ T :: B →
      ∀ v, lookupAssoc (setAssoc s.visited p qrest.length) T = some v →
      A.length + B.length ≤ v
      ∧ (A.length + B.length = v →
          ∀ X ∈ B, ∃ tx ∈ tasks, tx.name = X
            ∧ ∃ y ∈ qrest ++ [p], y ∈ tx.runAfter) := by
    intro A T B hsplit v hv
    rcases concat_split_eq hsplit with ⟨hB, hT, hA⟩ | ⟨B2, hB, hqr⟩
    · subst hB; subst hT; subst hA
      rw [lookup_setAssoc_self] at hv
      injection hv with hv2
      constructor
      · simp [hv2]
      · intro _ X hX
        cases hX
    · have hTp : T ≠ p := by
        intro hTe
        subst hTe
        rw [hqr] at hpnotin
        exact hpnotin (List.mem_append_right A (List.mem_cons_self T B2))
      rw [lookup_setAssoc_ne _ hTp] at hv
      have hold := hinv.guard (p :: A) T B2
        (by rw [hq, hqr]; rfl) v hv
      have hlen : B.length = B2.length + 1 := by rw [hB]; simp
      constructor
      · have := hold.1
        simp only [List.length_cons] at this
        omega
      · intro hEqs X hX
        have holdb := hold.2 (by
          have := hold.1
          simp only [List.length_cons] at this ⊢
          omega)
        rw [hB] at hX
        rcases List.mem_append.mp hX with hX2 | hXp
        · rcases holdb X hX2 with ⟨tx, htx, hnx, y, hy, hyra⟩
          exact ⟨tx, htx, hnx, y, (hset y).mpr hy, hyra⟩
        · rw [List.mem_singleton] at hXp
          subst hXp
          rcases hc1 with ⟨q, hqm, hqra⟩
          refine ⟨t0p, ht0p, ht0pn.trans hpn, q,
            List.mem_append_left _ hqm, ?_⟩
          rw [ht0pra]
          exact hqra
  exact ⟨hinv.frame, h2, h3, h4, h5⟩

theorem no_misfire {loops : List (List String)} {tasks : List PTask}
    (hacyc : ∀ n, ¬ Relation.TransGen (raEdge tasks) n n)
    {s : QState} {p : String} {qrest : List String} {popped : PTask}
    (hinv : WInv loops tasks s) (hq : s.queue = p :: qrest)
    (hft : findTask s.ws p = some popped)
    (hc1 : ∃ q ∈ qrest, q ∈ popped.runAfter)
    (hc2 : lookupAssoc s.visited p = some qrest.length) : False := by
  have hg := hinv.guard [] p qrest (by rw [hq]; rfl) qrest.length hc2
  have hb := hg.2 (by simp)
  have hall : ∀ x ∈ s.queue, ∃ y, y ∈ s.queue ∧ raEdge tasks x y := by
    intro x hx
    rw [hq] at hx
    rcases List.mem_cons.mp hx with rfl | hxq
    · obtain ⟨hpm, hpn⟩ := findTask_mem hft
      obtain ⟨t0p, ht0p, ht0pn, ht0pra⟩ := frame_elem hinv.frame hpm
      rcases hc1 with ⟨q, hqm, hqra⟩
      refine ⟨q, by rw [hq]; exact List.mem_cons_of_mem _ hqm,
        t0p, ht0p, ht0pn.trans hpn, ?_⟩
      rw [ht0pra]
      exact hqra
    · rcases hb x hxq with ⟨tx, htx, hnx, y, hy, hyra⟩
      exact ⟨y, hy, tx, htx, hnx, hyra⟩
  have hne : s.queue ≠ [] := by rw [hq]; simp
  rcases cycle_of_succ hne hall with ⟨n, hcyc⟩
  exact hacyc n hcyc

theorem winv_populate {loops : List (List String)} {tasks : List PTask}
    (hnodup : (tasks.map PTask.name).Nodup)
    (hacyc : ∀ n, ¬ Relation.TransGen (raEdge tasks) n n)
    {s : QState} {p : String} {qrest : List String} {popped : PTask}
    (hinv : WInv loops tasks s) (hq : s.queue = p :: qrest)
    (hft : findTask s.ws p = some popped)
    (hnoq : ¬ ∃ q ∈ qrest, q ∈ popped.runAfter) :
    WInv loops tasks
      ⟨updateTask s.ws (populateTask loops s.ws popped), qrest,
        s.visited⟩ := by
  have hqnd : (p :: qrest).Nodup := hq ▸ hinv.qnodup
  have hpnotin : p ∉ qrest := (List.nodup_cons.mp hqnd).1
  obtain ⟨hpm, hpn⟩ := findTask_mem hft
  obtain ⟨t0p, ht0p, ht0pn, ht0pra⟩ := frame_elem hinv.frame hpm
  have hwsnodup : (s.ws.map PTask.name).Nodup :=
    (frame_names hinv.frame).symm ▸ hnodup
  have hnew_name : (populateTask loops s.ws popped).name = p :=
    (populateTask_name loops s.ws popped).trans hpn
  have hpw : popped.when = t0p.when :=
    (hinv.whens popped hpm t0p ht0p ht0pn.symm).1
      (by rw [hpn, hq]; exact List.mem_cons_self p qrest)
  have hpt : popped = t0p := by
    cases popped with
    | mk pn2 pra2 pw2 =>
      cases t0p with
      | mk tn2 tra2 tw2 =>
        simp only [PTask.mk.injEq]
        exact ⟨ht0pn.symm, ht0pra.symm, hpw⟩
  have hcongF : ∀ t0 : PTask, p ∉ t0.runAfter →
      (populateTask loops s.ws t0).when
        = (populateTask loops
            (updateTask s.ws (populateTask loops s.ws popped)) t0).when := by
    intro t0 hpra
    apply populateTask_congr
    rw [updateTask]
    apply forall2_map_self
    intro x _
    by_cases hxn : x.name = (populateTask loops s.ws popped).name
    · rw [if_pos hxn]
      refine ⟨by rw [hxn], ?_⟩
      intro hmem
      exfalso
      rw [hxn, hnew_name] at hmem
      exact hpra hmem
    · rw [if_neg hxn]
      exact ⟨rfl, fun _ => rfl⟩
  have h1 : (updateTask s.ws (populateTask loops s.ws popped)).map
      (fun t => (t.name, t.runAfter))
      = tasks.map (fun t => (t.name, t.runAfter)) := by
    rw [updateTask, List.map_map]
    rw [show ((fun t => (t.name, t.runAfter)) ∘ (fun x =>
        if x.name = (populateTask loops s.ws popped).name then
          populateTask loops s.ws popped
        else x))
      = (fun x => (((if x.name = (populateTask loops s.ws popped).name
          then populateTask loops s.ws popped else x) : PTask).name,
        ((if x.name = (populateTask loops s.ws popped).name
          then populateTask loops s.ws popped else x) : PTask).runAfter))
      from rfl]
    rw [← hinv.frame]
    apply List.map_congr_left
    intro x hx
    by_cases hxn : x.name = (populateTask loops s.ws popped).name
    · rw [if_pos hxn]
      have hxp : x = popped := List.inj_on_of_nodup_map hwsnodup hx hpm
        (by rw [hxn, hnew_name, hpn])
      rw [hxp, populateTask_name, populateTask_runAfter]
    · rw [if_neg hxn]
  have h2 : qrest.Nodup := (List.nodup_cons.mp hqnd).2
  have h3 : ∀ q ∈ qrest, ∃ t ∈ tasks, t.name = q ∧ t.runAfter ≠ [] :=
    fun q hq2 => hinv.qtasks q (by rw [hq]; exact List.mem_cons_of_mem _ hq2)
  have h4 : ∀ tf ∈ updateTask s.ws (populateTask loops s.ws popped),
      ∀ t0 ∈ tasks, tf.name = t0.name →
      (tf.name ∈ qrest → tf.when = t0.when)
    ∧ (tf.name ∉ qrest →
        tf.when = (populateTask loops
          (updateTask s.ws (populateTask loops s.ws popped)) t0).when
        ∧ ∀ u ∈ t0.runAfter, u ∉ qrest) := by
    intro tf htf t0 ht0 hn2
    rcases List.mem_map.mp htf with ⟨x, hx, hgx⟩
    by_cases hxn : x.name = (populateTask loops s.ws popped).name
    · rw [if_pos hxn] at hgx
      rw [← hgx] at hn2 ⊢
      have ht0eq : t0 = t0p := List.inj_on_of_nodup_map hnodup ht0 ht0p
        (by rw [← hn2, hnew_name, ht0pn, hpn])
      subst ht0eq
      have hpra : p ∉ t0.runAfter := by
        intro hc
        exact hacyc p (Relation.TransGen.single
          ⟨t0, ht0, ht0pn.trans hpn, hc⟩)
      constructor
      · intro hmem
        exfalso
        rw [hnew_name] at hmem
        exact hpnotin hmem
      · intro _
        constructor
        · rw [← hcongF t0 hpra, hpt]
        · intro u hu hc
          apply hnoq
          refine ⟨u, hc, ?_⟩
          rw [← ht0pra]
          exact hu
    · rw [if_neg hxn] at hgx
      rw [← hgx]
      have hxnp : x.name ≠ p := fun hc => hxn (hc.trans hnew_name.symm)
      obtain ⟨hin, hout⟩ := hinv.whens x hx t0 ht0 (hgx ▸ hn2)
      constructor
      · intro hmem
        exact hin (by rw [hq]; exact List.mem_cons_of_mem _ hmem)
      · intro hnmem
        have hnods : x.name ∉ s.queue := by
          rw [hq]
          intro hc
          rcases List.mem_cons.mp hc with hc1 | hc2
          · exact hxnp hc1
          · exact hnmem hc2
        obtain ⟨hweq, hups⟩ := hout hnods
        have hpra : p ∉ t0.runAfter := fun hc =>
          hups p hc (by rw [hq]; exact List.mem_cons_self _ _)
        constructor
        · rw [hweq]
          exact hcongF t0 hpra
        · intro u hu hc
          exact hups u hu (by rw [hq]; exact List.mem_cons_of_mem _ hc)
  have h5 : ∀ A T B, qrest = A ++ T :: B →
      ∀ v, lookupAssoc s.visited T = some v →
      A.length + B.length ≤ v
      ∧ (A.length + B.length = v →
          ∀ X ∈ B, ∃ tx ∈ tasks, tx.name = X
            ∧ ∃ y ∈ qrest, y ∈ tx.runAfter) := by
    intro A T B hsplit v hv
    have hold := hinv.guard (p :: A) T B
      (by rw [hq, hsplit]; rfl) v hv
    have h6 := hold.1
    simp only [List.length_cons] at h6
    constructor
    · omega
    · intro hEqs
      omega
  exact ⟨h1, h2, h3, h4, h5⟩

theorem qstep_winv {loops : List (List String)} {tasks : List PTask}
    (hnodup : (tasks.map PTask.name).Nodup)
    (hacyc : ∀ n, ¬ Relation.TransGen (raEdge tasks) n n)
    {s s2 : QState} (hinv : WInv loops tasks s)
    (hstep : qstep loops s = some s2) : WInv loops tasks s2 := by
  cases hq : s.queue with
  | nil => rw [qstep_empty hq] at hstep; cases hstep
  | cons p qrest =>
    obtain ⟨tq, htq, htqn, _⟩ := hinv.qtasks p
      (by rw [hq]; exact List.mem_cons_self _ _)
    obtain ⟨tw, htw, htwn, _⟩ := frame_elem_rev hinv.frame htq
    obtain ⟨popped, hft⟩ := findTask_found ⟨tw, htw, htwn.trans htqn⟩
    rw [qstep_cons_found hq hft] at hstep
    by_cases hc : (∃ q ∈ qrest, q ∈ popped.runAfter)
        ∧ lookupAssoc s.visited p ≠ some qrest.length
    · rw [if_pos hc] at hstep
      injection hstep with h2
      rw [← h2]
      exact winv_defer hinv hq hft hc.1
    · rw [if_neg hc] at hstep
      injection hstep with h2
      rw [← h2]
      by_cases hc1 : ∃ q ∈ qrest, q ∈ popped.runAfter
      · have hc2 : lookupAssoc s.visited p = some qrest.length := by
          by_contra hne
          exact hc ⟨hc1, hne⟩
        exact (no_misfire hacyc hinv hq hft hc1 hc2).elim
      · exact winv_populate hnodup hacyc hinv hq hft hc1

theorem runQueueF_winv {loops : List (List String)} {tasks : List PTask}
    (hnodup : (tasks.map PTask.name).Nodup)
    (hacyc : ∀ n, ¬ Relation.TransGen (raEdge tasks) n n) :
    ∀ (n : Nat) (s : QState), WInv loops tasks s →
    WInv loops tasks (runQueueF loops n s) := by
  intro n
  induction n with
  | zero => intro s h; exact h
  | succ n ih =>
    intro s h
    cases hstep : qstep loops s with
    | none => rw [runQueueF, hstep]; exact h
    | some s2 =>
      rw [runQueueF, hstep]
      exact ih s2 (qstep_winv hnodup hacyc h hstep)

/-- C2 (amended): on acyclic run-after graphs with distinct task names
the worklist populates every task exactly once, after all of its
run-after upstreams, so the final task list is a fixpoint of
`populate_runafter_condition`: every task's final when-list is its
initial one extended, in task-list order, by each direct upstream's
final predicates, skipping duplicates and skipping predicates blocked
by the per-task loop-scope guard (`blockedWhen`).  Inherited predicates
therefore pass through every intermediate task's guard, and the final
lists stay duplicate-free when the initial ones are. -/
theorem claim_C2_when_propagation {loops : List (List String)}
    {tasks : List PTask}
    (hnodup : (tasks.map PTask.name).Nodup)
    (hacyc : ∀ n, ¬ Relation.TransGen (raEdge tasks) n n) :
    (populate_conditions loops tasks).map (fun t => (t.name, t.runAfter))
      = tasks.map (fun t => (t.name, t.runAfter))
    ∧ (∀ tf ∈ populate_conditions loops tasks, ∀ t0 ∈ tasks,
        tf.name = t0.name →
        tf.when = (populateTask loops
          (populate_conditions loops tasks) t0).when)
    ∧ ((∀ t ∈ tasks, t.when.Nodup) →
        ∀ tf ∈ populate_conditions loops tasks, tf.when.Nodup) := by
  have hfin : WInv loops tasks
      (runQueueF loops (qMeasure (initQState tasks)) (initQState tasks)) :=
    runQueueF_winv hnodup hacyc _ _ (winv_init hnodup)
  have hqe : (runQueueF loops (qMeasure (initQState tasks))
      (initQState tasks)).queue = [] :=
    runQueueF_drains loops _ _ (le_refl _)
  refine ⟨hfin.frame, ?_, ?_⟩
  · intro tf htf t0 ht0 hn
    exact ((hfin.whens tf htf t0 ht0 hn).2 (by rw [hqe]; simp)).1
  · intro hwnd tf htf
    obtain ⟨t0, ht0, hn, _⟩ := frame_elem hfin.frame htf
    have h := ((hfin.whens tf htf t0 ht0 hn.symm).2 (by rw [hqe]; simp)).1
    rw [h]
    exact populateTask_nodup (hwnd t0 ht0)

/-- The when-predicate of the condition chain: its input references the
task `tx`. -/
def wC2 : WhenR := ⟨"$(tasks.tx.results.r)", "in", ["true"]⟩

/-- Chain `t3` runs after `t2` runs after `t1`; only `t1` carries a
predicate and only `t2` sits in a pipeline-loop task list. -/
def tasksC2 : List PTask :=
  [⟨"t1", [], [wC2]⟩, ⟨"t2", ["t1"], []⟩, ⟨"t3", ["t2"], []⟩]

def loopsC2 : List (List String) := [["t2"]]

/-- C2: the claim as frozen is false on the code.  The loop-scope guard
is applied at every copy hop, not against the final downstream task:
`t1`'s predicate is blocked when copied into `t2` (which sits in a loop
scope not containing the referenced task `tx`), so `t3` — reachable
from `t1` via run-after and itself in no loop scope, hence exempt from
the claim's exception — still ends with an empty when-list instead of
the claimed union of reachable upstream predicates. -/
theorem claim_C2_counterexample :
    populate_conditions loopsC2 tasksC2 = tasksC2
    ∧ Relation.TransGen (raEdge tasksC2) "t3" "t1"
    ∧ wC2 ∈ (⟨"t1", [], [wC2]⟩ : PTask).when
    ∧ (∀ lp ∈ loopsC2, "t3" ∉ lp)
    ∧ (∀ tf ∈ populate_conditions loopsC2 tasksC2, tf.name = "t3" →
        tf.when = []) := by
  have hfix : populate_conditions loopsC2 tasksC2 = tasksC2 := by decide
  refine ⟨hfix, ?_, by decide, by decide, ?_⟩
  · have e32 : raEdge tasksC2 "t3" "t2" :=
      ⟨⟨"t3", ["t2"], []⟩, by decide, rfl, by decide⟩
    have e21 : raEdge tasksC2 "t2" "t1" :=
      ⟨⟨"t2", ["t1"], []⟩, by decide, rfl, by decide⟩
    exact Relation.TransGen.tail (Relation.TransGen.single e32) e21
  · intro tf htf hn
    rw [hfix] at htf
    fin_cases htf
    · exact absurd hn (by decide)
    · exact absurd hn (by decide)
    · rfl

theorem claim_C2_witness :
    (populate_conditions loopsC2 tasksC2).map (fun t => (t.name, t.runAfter))
      = tasksC2.map (fun t => (t.name, t.runAfter))
    ∧ (∀ tf ∈ populate_conditions loopsC2 tasksC2, ∀ t0 ∈ tasksC2,
        tf.name = t0.name →
        tf.when = (populateTask loopsC2
          (populate_conditions loopsC2 tasksC2) t0).when)
    ∧ ((∀ t ∈ tasksC2, t.when.Nodup) →
        ∀ tf ∈ populate_conditions loopsC2 tasksC2, tf.when.Nodup) := by
  have hacyc : ∀ n, ¬ Relation.TransGen (raEdge tasksC2) n n := by
    apply acyclic_of_rank
      (fun s => if s = "t3" then 2 else if s = "t2" then 1 else 0)
    intro u v he
    rcases he with ⟨t, ht, hn, hm⟩
    fin_cases ht
    · exact absurd hm (by simp)
    · rw [List.mem_singleton] at hm
      rw [← hn, hm]
      decide
    · rw [List.mem_singleton] at hm
      rw [← hn, hm]
      decide
  exact claim_C2_when_propagation (by decide) hacyc

end KFPT
